import Mathlib

/-!
Verification of the PASKIL "squish" codec (canonical Huffman compression of
masked integer arrays).

The definitions below are a shallow embedding of the C sources:
* `src/extensions/chuffman.c` — canonical Huffman encoding library
  (histogram, tree builder, canonical code assignment, array encoder);
* `src/PASKIL/extensions/cSquish.c` — the "sqd" container writer/readers
  (`cSquish_compress`, `cSquish_decompress`, `cSquish_getHeader`,
  `cSquish_getSize`, `cSquish_isSqd`, `openSqd`, `readSqdHeader`).

Machine integers are modelled as `Nat` with explicit `% 2 ^ w` reductions at
the points where the C code can overflow (`count_t` sums, bit-buffer
increments).  Fallible C paths (allocation failure aside, which is not
modelled) return `Option`.  Files are modelled as lists of byte values.

The bit-buffer library (`bitarray.c`) is not part of the sources under
`src/`; its operations are modelled from the specification (spec section 4.1)
as a big-endian bit sequence of fixed logical length, represented by its
integer value: bit index 0 is the most significant bit.
-/

namespace Squish

/-- NUM_CHARS from huffman.h: 65536 data values (16-bit image data) + EOF. -/
def NUM_CHARS : Nat := 65537

/-- EOF_CHAR from huffman.h: index used for EOF. -/
def EOF_CHAR : Nat := NUM_CHARS - 1

/-- COUNT_T_MAX from huffman.h: UINT_MAX, the largest value of `count_t`. -/
def COUNT_T_MAX : Nat := 4294967295

/-- INT_MAX of the 32-bit C `int` type, used by FindMinimumCount. -/
def INT_MAX : Nat := 2147483647

/-!
## Bit buffer

Modelled from the spec: `bitarray.c` is not present under `src/`; spec
section 4.1 gives the contract (fixed logical bit length; set/test/clear;
shifts fill with zero and keep the length; increment treats the buffer as a
big-endian unsigned integer; compare is lexicographic from index 0, which on
equal-length buffers coincides with comparison of the big-endian values).
A buffer of `numBits` bits is represented by its big-endian integer value
`val < 2 ^ numBits`; bit `i` of the buffer is bit `numBits - 1 - i` of `val`.
Creation yields an all-zero buffer (the encoder only ever sets 1-bits into a
freshly created buffer, so zero initialisation is the reading under which
the code is correct).
-/

structure BitArr where
  numBits : Nat
  val : Nat
deriving DecidableEq, Repr

/-- BitArrayCreate: a fresh zeroed buffer of the given bit length. -/
def BitArrayCreate (n : Nat) : BitArr := ⟨n, 0⟩

/-- BitArrayClearAll. -/
def BitArr.clearAll (a : BitArr) : BitArr := ⟨a.numBits, 0⟩

/-- BitArrayTestBit: test bit `i` (most-significant-first indexing). -/
def BitArr.testBit (a : BitArr) (i : Nat) : Bool :=
  if i < a.numBits then Nat.testBit a.val (a.numBits - 1 - i) else false

/-- BitArraySetBit: set bit `i` (indices past the end leave the buffer as is;
the C library treats them as an error, and no call site reaches that case in
the paths we verify). -/
def BitArr.setBit (a : BitArr) (i : Nat) : BitArr :=
  if i < a.numBits then ⟨a.numBits, a.val ||| 2 ^ (a.numBits - 1 - i)⟩ else a

/-- BitArrayShiftLeft: shift towards index 0, zero-filling at the tail. -/
def BitArr.shiftLeft (a : BitArr) (s : Nat) : BitArr :=
  ⟨a.numBits, a.val * 2 ^ s % 2 ^ a.numBits⟩

/-- BitArrayShiftRight: shift towards the tail, zero-filling at index 0. -/
def BitArr.shiftRight (a : BitArr) (s : Nat) : BitArr :=
  ⟨a.numBits, a.val / 2 ^ s⟩

/-- BitArrayIncrement: add one to the big-endian value (overflow beyond the
width wraps; the spec leaves overflow undefined and it does not occur in the
verified paths). -/
def BitArr.increment (a : BitArr) : BitArr :=
  ⟨a.numBits, (a.val + 1) % 2 ^ a.numBits⟩

/-- BitArrayCompare on equal-length buffers: zero iff the values are equal. -/
def BitArrayCompareEq (a b : BitArr) : Bool := a.val == b.val

/-!
## Canonical list entries (canonical_list_t from huffman.h)
-/

structure CanonEntry where
  value : Nat
  codeLen : Nat
  code : Option BitArr
deriving DecidableEq, Repr

/-- Order used by qsort with CompareByCodeLen: by code length, ties broken by
symbol value.  The C comparator never reports equality for distinct entries
(all entry values are distinct in every call), so the sorted permutation is
unique and any sorting algorithm models qsort faithfully. -/
def canonLenLE (a b : CanonEntry) : Prop :=
  a.codeLen < b.codeLen ∨ (a.codeLen = b.codeLen ∧ a.value ≤ b.value)

instance : DecidableRel canonLenLE := fun a b =>
  inferInstanceAs (Decidable (_ ∨ _))

instance : IsTotal CanonEntry canonLenLE where
  total a b := by
    rcases Nat.lt_trichotomy a.codeLen b.codeLen with h | h | h
    · exact Or.inl (Or.inl h)
    · rcases Nat.le_total a.value b.value with hv | hv
      · exact Or.inl (Or.inr ⟨h, hv⟩)
      · exact Or.inr (Or.inr ⟨h.symm, hv⟩)
    · exact Or.inr (Or.inl h)

instance : IsTrans CanonEntry canonLenLE where
  trans a b c hab hbc := by
    rcases hab with h1 | ⟨h1, v1⟩ <;> rcases hbc with h2 | ⟨h2, v2⟩
    · exact Or.inl (h1.trans h2)
    · exact Or.inl (h2 ▸ h1)
    · exact Or.inl (h1 ▸ h2)
    · exact Or.inr ⟨h1.trans h2, v1.trans v2⟩

/-- Order used by qsort with CompareBySymbolValue: by symbol value. -/
def canonValLE (a b : CanonEntry) : Prop := a.value ≤ b.value

instance : DecidableRel canonValLE := fun a b =>
  inferInstanceAs (Decidable (_ ≤ _))

instance : IsTotal CanonEntry canonValLE where
  total a b := Nat.le_total a.value b.value

instance : IsTrans CanonEntry canonValLE where
  trans _ _ _ hab hbc := Nat.le_trans hab hbc

/-!
## Huffman tree nodes (huffman_node_t)

A node is a leaf (value, count) or a composite of two children
(`AllocHuffmanCompositeNode` always attaches exactly two).  The count of a
composite is the `count_t` (unsigned 32-bit) sum of its children; the level
is `max(child levels) + 1` with leaves at level 0.
-/

inductive HuffTree where
  | leaf (value : Nat) (count : Nat)
  | comp (l r : HuffTree)
deriving DecidableEq, Repr

/-- Count of a node; composite counts are 32-bit unsigned sums. -/
def HuffTree.count : HuffTree → Nat
  | .leaf _ c => c
  | .comp l r => (l.count + r.count) % 2 ^ 32

/-- Level of a node (root of a fresh leaf is 0). -/
def HuffTree.level : HuffTree → Nat
  | .leaf _ _ => 0
  | .comp l r => max l.level r.level + 1

/-- Values stored at the leaves, leftmost first. -/
def HuffTree.leafValues : HuffTree → List Nat
  | .leaf v _ => [v]
  | .comp l r => l.leafValues ++ r.leafValues

/-- A slot of the `huffmanArray` node array: the pointed-to node together
with its `ignore` flag; `none` models a NULL pointer. -/
structure Slot where
  tree : HuffTree
  ignore : Bool
deriving DecidableEq, Repr

/-!
## FindMinimumCount (chuffman.c lines 747-769)

The C loop starts with `currentCount = INT_MAX` and `currentLevel = INT_MAX`
(both as C `int`; `count` is an unsigned 32-bit `count_t`, so the comparison
`ht[i]->count < currentCount` promotes `currentCount` to unsigned).  The fold
below carries the loop state; `currentIndex = none` models `NONE`.
-/

structure FmcState where
  currentIndex : Option Nat
  currentCount : Nat
  currentLevel : Nat
deriving DecidableEq, Repr

def fmcStep (i : Nat) (s : FmcState) (slot : Option Slot) : FmcState :=
  match slot with
  | none => s
  | some sl =>
    if sl.ignore = false ∧
        (sl.tree.count < s.currentCount ∨
          (sl.tree.count = s.currentCount ∧ sl.tree.level < s.currentLevel)) then
      ⟨some i, sl.tree.count, sl.tree.level⟩
    else s

def fmcGo (i : Nat) (s : FmcState) : List (Option Slot) → FmcState
  | [] => s
  | slot :: rest => fmcGo (i + 1) (fmcStep i s slot) rest

def fmcInit : FmcState := ⟨none, INT_MAX, INT_MAX⟩

def FindMinimumCount (ht : List (Option Slot)) : Option Nat :=
  (fmcGo 0 fmcInit ht).currentIndex

/-!
## BuildHuffmanTree (chuffman.c lines 780-819)

Each loop iteration selects the two minima, marks them ignored, and replaces
slot `min1` by the fresh composite (ignore = FALSE) while slot `min2` becomes
NULL.  Breaking with `min2 == NONE` returns `ht[min1]` (the last selected
node); breaking with `min1 == NONE` on the first find of an iteration makes
the C read `ht[-1]`, which is undefined behaviour and is modelled as `none`.
Fuel bounds the iteration count; `NUM_CHARS + 1` always suffices because each
full iteration reduces the number of active nodes by one.
-/

def markIgnore (ht : List (Option Slot)) (i : Nat) : List (Option Slot) :=
  ht.set i ((ht.getD i none).map fun sl => ⟨sl.tree, true⟩)

def buildLoop : Nat → List (Option Slot) → Option HuffTree
  | 0, _ => none
  | fuel + 1, ht =>
    match FindMinimumCount ht with
    | none => none
    | some min1 =>
      match FindMinimumCount (markIgnore ht min1) with
      | none => ((markIgnore ht min1).getD min1 none).map (·.tree)
      | some min2 =>
        match (markIgnore ht min1).getD min1 none, (markIgnore ht min1).getD min2 none with
        | some s1, some s2 =>
          buildLoop fuel
            (((markIgnore ht min1).set min1
              (some ⟨.comp s1.tree s2.tree, false⟩)).set min2 none)
        | _, _ => none

def BuildHuffmanTree (ht : List (Option Slot)) : Option HuffTree :=
  buildLoop (ht.length + 1) ht

/-!
## histogram (chuffman.c lines 124-139)

The C code has no range check: `hist[data[i]] += 1` for an out-of-range
symbol writes outside the table (undefined behaviour).  The model's
`List.set` leaves the table unchanged at out-of-range indices; the embedding
is only appealed to for inputs whose symbols are below `NUM_CHARS` (the
reserved EOF index 65536 is in range and is counted like any other value).
The C loop runs from the last element down; `foldr` processes elements in
the same order, and the resulting counts are order-independent anyway.
-/

def histogram (data : List Nat) : List Nat :=
  data.foldr (fun c hist => hist.set c (hist.getD c 0 + 1))
    (List.replicate NUM_CHARS 0)

/-!
## GenerateTreeFromArray (chuffman.c lines 150-196)

All `NUM_CHARS` leaves are allocated with `ignore = TRUE`; the EOF leaf is
then given count 1 and `ignore = FALSE`.  The counting loop increments a
symbol's count only while it is below `COUNT_T_MAX`, failing (NULL return)
on the occurrence that would push it past the maximum; like `histogram` it
performs no range check, so symbols at or above `NUM_CHARS` are undefined
behaviour in C (the model returns `none` for them, and the embedding is only
appealed to for in-range symbols).
-/

def initialLeafSlots : List (Option Slot) :=
  (List.range NUM_CHARS).map fun c =>
    some ⟨.leaf c (if c = EOF_CHAR then 1 else 0), if c = EOF_CHAR then false else true⟩

def countSymbol (ht : List (Option Slot)) (c : Nat) : Option (List (Option Slot)) :=
  if c < ht.length then
    match ht.getD c none with
    | some ⟨.leaf v cnt, _⟩ =>
      if cnt < COUNT_T_MAX then some (ht.set c (some ⟨.leaf v (cnt + 1), false⟩))
      else none
    | _ => none
  else none

def countSymbols (ht : List (Option Slot)) : List Nat → Option (List (Option Slot))
  | [] => some ht
  | c :: rest =>
    match countSymbol ht c with
    | none => none
    | some ht2 => countSymbols ht2 rest

def GenerateTreeFromArray (raw_data : List Nat) : Option HuffTree :=
  match countSymbols initialLeafSlots raw_data with
  | none => none
  | some ht => BuildHuffmanTree ht

/-!
## BuildCanonicalCode (chuffman.c lines 510-580)

The iterative leftmost-first traversal with parent backtracking records each
leaf's depth as its code length; it is embedded as the equivalent recursive
depth-first traversal.  The `depth == 0` special case (a one-leaf tree) is
applied at the leaf, exactly as in the C code.
-/

def leafDepths : HuffTree → Nat → List (Nat × Nat)
  | .leaf v _, depth => [(v, if depth = 0 then 1 else depth)]
  | .comp l r, depth => leafDepths l (depth + 1) ++ leafDepths r (depth + 1)

/-- The initialisation loop of BuildCanonicalCode. -/
def initCanonList : List CanonEntry :=
  (List.range NUM_CHARS).map fun i => ⟨i, 0, none⟩

/-- Entering the recorded leaf depths into the list (`cl[value].codeLen = depth`). -/
def applyDepths (cl : List CanonEntry) (ds : List (Nat × Nat)) : List CanonEntry :=
  ds.foldl (fun cl2 vd => cl2.set vd.1 ⟨vd.1, vd.2, none⟩) cl

/-!
## AssignCanonicalCodes (chuffman.c lines 592-634)

The C loop walks the length-sorted list from index `NUM_CHARS - 1` down to 0
(the model processes the reversed list), breaking at the first zero-length
entry.  The running code is a `NUM_CHARS - 1` bit buffer holding the counter
right-justified; each assigned code is the counter left-justified into the
buffer width.  The C `length` variable is a `byte_t`; its value never
exceeds the maximal code depth, which is far below 256 for every reachable
count table, so it is modelled as `Nat`.
-/

def assignGo (M : Nat) (codeVal length : Nat) : List CanonEntry → List CanonEntry
  | [] => []
  | e :: rest =>
    if e.codeLen = 0 then e :: rest
    else
      let codeVal1 := if e.codeLen < length then codeVal / 2 ^ (length - e.codeLen) else codeVal
      let length1 := if e.codeLen < length then e.codeLen else length
      ⟨e.value, e.codeLen, some ⟨M, codeVal1 * 2 ^ (M - length1) % 2 ^ M⟩⟩ ::
        assignGo M ((codeVal1 + 1) % 2 ^ M) length1 rest

def AssignCanonicalCodes (cl : List CanonEntry) : List CanonEntry :=
  let M := NUM_CHARS - 1
  (assignGo M 0 (cl.getD (NUM_CHARS - 1) ⟨0, 0, none⟩).codeLen cl.reverse).reverse

def BuildCanonicalCode (ht : HuffTree) : List CanonEntry :=
  let withLens := applyDepths initCanonList (leafDepths ht 0)
  let sorted := List.insertionSort canonLenLE withLens
  let assigned := AssignCanonicalCodes sorted
  List.insertionSort canonValLE assigned

/-!
## CHuffmanEncodeArray (chuffman.c lines 35-114)
-/

/-- Concatenation of a list of lists (the successive appends performed by the
bit-writing loops). -/
def concatAll : List (List α) → List α
  | [] => []
  | l :: ls => l ++ concatAll ls

/-- Big-endian value of a bit sequence. -/
def bitsToVal (bits : List Bool) : Nat :=
  bits.foldl (fun a b => 2 * a + (if b then 1 else 0)) 0

/-- The bits of one symbol's code word, as read by
`BitArrayTestBit(canonicalList[c].code, j)` for `j < codeLen`.  A NULL code
(never reached by the encoder for symbols that occur) tests as all-zero. -/
def codeBits (e : CanonEntry) : List Bool :=
  match e.code with
  | some ba => (List.range e.codeLen).map fun j => ba.testBit j
  | none => List.replicate e.codeLen false

/-- Positional lookup `canonicalList[c]` (the list is in symbol order when
the encoder uses it, so position and symbol value agree). -/
def clLookup (cl : List CanonEntry) (c : Nat) : CanonEntry :=
  cl.getD c ⟨c, 0, none⟩

/-- The encoded bit stream: each input symbol's code word in order, followed
by the EOF code word. -/
def encodeBitsList (cl : List CanonEntry) (data : List Nat) : List Bool :=
  concatAll (data.map fun c => codeBits (clLookup cl c)) ++ codeBits (clLookup cl EOF_CHAR)

/-- The bit-length computation of CHuffmanEncodeArray:
`sum over i of hist[i] * codeLen[i]`, plus the EOF code length. -/
def encodedSize (cl : List CanonEntry) (data : List Nat) : Nat :=
  (List.range NUM_CHARS).foldl
    (fun acc i => acc + (histogram data).getD i 0 * (clLookup cl i).codeLen) 0
    + (clLookup cl EOF_CHAR).codeLen

structure EncodedArray where
  data : BitArr
  canonicalList : List CanonEntry
  size : Nat
deriving DecidableEq, Repr

def CHuffmanEncodeArray (raw_data : List Nat) : Option EncodedArray :=
  match GenerateTreeFromArray raw_data with
  | none => none
  | some tree =>
    let cl := BuildCanonicalCode tree
    let size := encodedSize cl raw_data
    some ⟨⟨size, bitsToVal (encodeBitsList cl raw_data)⟩, cl, size⟩

/-!
## The sqd container writer (cSquish_compress, cSquish.c lines 28-184)

`fprintf(ofp, "%d ", n)` writes the decimal digits of `n` followed by one
space; `fputs` writes bytes verbatim; the payload loop writes the bytes of
the encoded bit buffer (bit `k` lives in byte `k / 8` at in-byte position
`7 - k % 8`, i.e. most significant bit first).
-/

/-- ASCII decimal digits of `n`, most significant first (output of `%d` for
the non-negative values written by the program).  The first argument is
fuel; `decDigits` supplies `n` itself, which always suffices. -/
def decDigitsGo : Nat → Nat → List Nat
  | 0, n => [48 + n % 10]
  | fuel + 1, n => if n < 10 then [48 + n] else decDigitsGo fuel (n / 10) ++ [48 + n % 10]

def decDigits (n : Nat) : List Nat := decDigitsGo n n

/-- ASCII space, the separator written after every `%d`. -/
def SP : Nat := 32

/-- The byte "sqd" magic. -/
def sqdMagic : List Nat := [115, 113, 100]

/-- Byte `i` of the encoded bit buffer. -/
def bitArrByte (a : BitArr) (i : Nat) : Nat :=
  bitsToVal ((List.range 8).map fun j => a.testBit (8 * i + j))

/-- The payload bytes: `ceil(size / 8)` bytes of the bit buffer (the C code
computes the count with floating point `ceil`, exact for every reachable
size). -/
def compressPayload (enc : EncodedArray) : List Nat :=
  (List.range ((enc.size + 7) / 8)).map (bitArrByte enc.data)

/-- The byte stream written by cSquish_compress after a successful encode. -/
def mkSqdFile (header : List Nat) (w h : Nat) (tableLens : List Nat)
    (numBytes : Nat) (payload : List Nat) : List Nat :=
  sqdMagic ++ decDigits header.length ++ [SP] ++ decDigits w ++ [SP] ++ decDigits h ++ [SP]
    ++ header ++ decDigits NUM_CHARS ++ [SP]
    ++ concatAll (tableLens.map fun L => decDigits L ++ [SP])
    ++ decDigits numBytes ++ [SP] ++ payload

/-- The raw length computation of cSquish_compress and cSquish_decompress:
`w * h`, except that a zero dimension makes it `w + h`. -/
def rawLength (w h : Nat) : Nat := if w = 0 ∨ h = 0 then w + h else w * h

/-- The masking loops of cSquish_compress: the data values at mask-nonzero
positions, in row-major order (the C loops run backwards over both arrays
and fill the target backwards, preserving order). -/
def maskedData (data mask : List Nat) : List Nat :=
  ((data.zip mask).filter fun dm => dm.2 != 0).map Prod.fst

/-- cSquish_compress, from the point where both arrays have been validated
to have the same shape `w × h` (the Python argument marshalling and the
shape check are the binding layer).  Returns the bytes of the written file,
or `none` when the encoder fails.  The file-name handling (`strcat` of
".sqd") is modelled separately below. -/
def compressFile (data mask : List Nat) (w h : Nat) (header : List Nat) : Option (List Nat) :=
  match CHuffmanEncodeArray (maskedData data mask) with
  | none => none
  | some enc =>
    some (mkSqdFile header w h (enc.canonicalList.map (·.codeLen))
      ((enc.size + 7) / 8) (compressPayload enc))

/-!
## Container parsing (openSqd, readSqdHeader, cSquish.c lines 490-550)

`fscanf` `%d` skips leading white space and consumes a digit run; a white
space directive in the format string (the trailing blank of `"%d "`) greedily
consumes any run of white-space bytes.  `fgets(buf, n+1)` reads at most `n`
bytes, stopping after a newline (which is kept).  A failed `%d` conversion
leaves the C variable indeterminate; the model returns `none` at the points
where the C would go on to use such a value.
-/

def isWsByte (b : Nat) : Bool :=
  b == 32 || b == 9 || b == 10 || b == 11 || b == 12 || b == 13

def skipWs : List Nat → List Nat
  | [] => []
  | b :: rest => if isWsByte b then skipWs rest else b :: rest

def isDigitByte (b : Nat) : Bool := 48 ≤ b && b ≤ 57

def parseDigitsGo (acc : Nat) : List Nat → Nat × List Nat
  | [] => (acc, [])
  | b :: rest =>
    if isDigitByte b then parseDigitsGo (10 * acc + (b - 48)) rest else (acc, b :: rest)

/-- One `%d` conversion: skip white space, then require at least one digit
(the values written by the program are unsigned, so signs never occur). -/
def parseUInt (l : List Nat) : Option (Nat × List Nat) :=
  match skipWs l with
  | [] => none
  | b :: rest => if isDigitByte b then some (parseDigitsGo 0 (b :: rest)) else none

/-- `fgets` limited to `n` content bytes: read until `n` bytes were taken or
a newline was consumed (the newline is kept in the output). -/
def fgetsGo (n : Nat) : List Nat → List Nat × List Nat
  | [] => ([], [])
  | b :: rest =>
    match n with
    | 0 => ([], b :: rest)
    | m + 1 =>
      if b = 10 then ([b], rest)
      else
        let sr := fgetsGo m rest
        (b :: sr.1, sr.2)

/-- openSqd: check the three magic bytes and position after them. -/
def openSqdBytes (file : List Nat) : Option (List Nat) :=
  match file with
  | s :: q :: d :: rest =>
    if s = 115 ∧ q = 113 ∧ d = 100 then some rest else none
  | _ => none

/-- The sqd_header_t structure, extended with the remaining input (the FILE
position after the reads) and with `num_chars` as an `Option`: the C leaves
`num_chars` indeterminate when its `%d` fails, and `cSquish_getHeader` never
looks at it. -/
structure SqdHeader where
  header_length : Nat
  image_width : Nat
  image_height : Nat
  header_data : List Nat
  num_chars : Option Nat
  rest : List Nat
deriving DecidableEq, Repr

/-- readSqdHeader, starting just after the magic bytes: `fscanf "%d %d %d "`
(three conversions, then the trailing white-space directive), `fgets` of
`header_length` content bytes, then `fscanf "%d"` for the alphabet size. -/
def readSqdHeader (afterMagic : List Nat) : Option SqdHeader :=
  match parseUInt afterMagic with
  | none => none
  | some (hl, r1) =>
    match parseUInt r1 with
    | none => none
    | some (w, r2) =>
      match parseUInt r2 with
      | none => none
      | some (h, r3) =>
        let r3w := skipWs r3
        let hr := fgetsGo hl r3w
        match parseUInt hr.2 with
        | none => some ⟨hl, w, h, hr.1, none, hr.2⟩
        | some (nc, r5) => some ⟨hl, w, h, hr.1, some nc, r5⟩

/-- cSquish_isSqd: true exactly when openSqd succeeds. -/
def cSquish_isSqd (file : List Nat) : Bool := (openSqdBytes file).isSome

/-!
## cSquish_decompress (cSquish.c lines 188-398)
-/

/-- The decode-table loop: `num_chars` many `fscanf "%d "` conversions. -/
def readTable : Nat → List Nat → Option (List Nat × List Nat)
  | 0, l => some ([], l)
  | n + 1, l =>
    match parseUInt l with
    | none => none
    | some (v, r) =>
      match readTable n (skipWs r) with
      | none => none
      | some (vs, r2) => some (v :: vs, r2)

/-- Bits of one payload byte, most significant first. -/
def byteBits (b : Nat) : List Bool :=
  (List.range 8).map fun j => Nat.testBit b (7 - j)

/-- The lenIndex array: for each length, the first position in the sorted
canonical list carrying that code length, or `num_chars` when none does. -/
def lenIndexFn (nc : Nat) (cl : List CanonEntry) (L : Nat) : Nat :=
  match cl.findIdx? (fun e => e.codeLen == L) with
  | some i => i
  | none => nc

/-- The value a stored code compares as (`BitArrayCompare == 0` against the
accumulator buffer of the same width reduces to value equality); a NULL code
is never compared in the verified paths. -/
def storedCodeVal (e : CanonEntry) : Nat :=
  match e.code with
  | some ba => ba.val
  | none => 0

/-- The inner scan of the decode loop: from `lenIndex[length]` while entries
still have the current length, find one whose code equals the accumulator. -/
def bucketFind (nc : Nat) (cl : List CanonEntry) (L : Nat) (v : Nat) : Option CanonEntry :=
  ((cl.drop (lenIndexFn nc cl L)).takeWhile fun e => e.codeLen == L).find?
    fun e => storedCodeVal e == v

/-- The decode loop.  State: bit cursor `j`, accumulator value and length,
decoded symbols so far.  The C tests `BitArrayTestBit(bit_arr_data, j)`
against a buffer declared to hold `numBytes * 8` bits whose backing store
holds `8 * |payload|` initialised bits; a read past either bound is an
index error respectively a read of uninitialised memory, and terminating
without having decoded EOF makes the C loop run on unboundedly — all three
are modelled as `none`.  Setting an accumulator bit at or past the buffer
width `nc - 1` is likewise an index error.  The fuel decreases once per
consumed bit, so `8 * |payload| + 1` suffices. -/
def decodeLoop (nc : Nat) (cl : List CanonEntry) (bits : List Bool) (numBits : Nat) :
    Nat → Nat → Nat → Nat → List Nat → Option (List Nat)
  | 0, _, _, _, _ => none
  | fuel + 1, j, codeVal, length, acc =>
    if j < numBits ∧ j < bits.length then
      let b := bits.getD j false
      if b = true ∧ ¬ length < nc - 1 then none
      else
        let codeVal2 := if b then codeVal ||| 2 ^ (nc - 1 - 1 - length) else codeVal
        let length1 := length + 1
        if lenIndexFn nc cl length1 ≠ nc then
          match bucketFind nc cl length1 codeVal2 with
          | some e =>
            if e.value ≠ EOF_CHAR then
              decodeLoop nc cl bits numBits fuel (j + 1) 0 0 (acc ++ [e.value])
            else some acc
          | none => decodeLoop nc cl bits numBits fuel (j + 1) codeVal2 length1 acc
        else decodeLoop nc cl bits numBits fuel (j + 1) codeVal2 length1 acc
    else none

/-- cSquish_decompress on the bytes of a container file.  Returns the list
of decoded symbols (the C stores them into the first `k` cells of a
`rawLength` sized output buffer and hands the whole buffer to the caller;
the decoded prefix is the meaningful content).  The trailing white-space
directive of the `fscanf "%d "` that reads the byte count consumes any
white-space bytes that follow — including leading payload bytes whose values
are ASCII white space. -/
def cSquish_decompress (file : List Nat) : Option (List Nat) :=
  match openSqdBytes file with
  | none => none
  | some afterMagic =>
    match readSqdHeader afterMagic with
    | none => none
    | some hd =>
      match hd.num_chars with
      | none => none
      | some nc =>
        match readTable nc hd.rest with
        | none => none
        | some (table, r1) =>
          match parseUInt r1 with
          | none => none
          | some (numBytes, r2) =>
            let payload := skipWs r2
            let entries := (List.range nc).map fun i =>
              (⟨i, table.getD i 0, none⟩ : CanonEntry)
            let sorted := List.insertionSort canonLenLE entries
            let assigned := AssignCanonicalCodes sorted
            decodeLoop nc assigned (concatAll (payload.map byteBits)) (numBytes * 8)
              (8 * payload.length + 1) 0 0 0 []

/-!
## Destination file naming (cSquish_compress, cSquish.c lines 128-135)

`ofp = fopen(strcat(filename, ".sqd"), "wb")`: `strcat` appends ".sqd" in
place to the buffer `filename` points to — which is the internal buffer of
the caller-supplied Python string (obtained via `PyArg_ParseTuple "s"`) —
and returns that same buffer, which is what `fopen` receives.  The append
happens before the file is opened (arguments are evaluated first).
-/

def strcatModel (dst src : List Nat) : List Nat := dst ++ src

/-- The bytes of ".sqd". -/
def sqdExtension : List Nat := [46, 115, 113, 100]

/-- Content of the caller's destination buffer after the strcat. -/
def compressDestBuffer (filename : List Nat) : List Nat :=
  strcatModel filename sqdExtension

/-- The name passed to fopen — the same (mutated) buffer. -/
def compressOpenedFilename (filename : List Nat) : List Nat :=
  compressDestBuffer filename

/-!
## Derived notions used to state the claims
-/

/-- A slot is active when it holds a node whose ignore flag is clear. -/
def isActiveSlot : Option Slot → Bool
  | none => false
  | some sl => !sl.ignore

/-- Number of active slots. -/
def numActive (ht : List (Option Slot)) : Nat := (ht.filter isActiveSlot).length

/-- The (count, level) key FindMinimumCount minimises. -/
def slotKey (sl : Slot) : Nat × Nat := (sl.tree.count, sl.tree.level)

/-- Strict lexicographic order on (count, level) keys — the improvement test
of the FindMinimumCount loop body. -/
def lexLT (a b : Nat × Nat) : Prop := a.1 < b.1 ∨ (a.1 = b.1 ∧ a.2 < b.2)

/-- Count contributed by a slot to the active total. -/
def slotContrib (s : Option Slot) : Nat :=
  if isActiveSlot s then (s.getD ⟨.leaf 0 0, true⟩).tree.count else 0

/-- Sum of the counts of the active slots. -/
def activeCountSum (ht : List (Option Slot)) : Nat :=
  ht.foldr (fun s acc => slotContrib s + acc) 0

/-- Leaf values held by a slot. -/
def slotLeafList : Option Slot → List Nat
  | none => []
  | some sl => sl.tree.leafValues

/-- Sum of a function over a list of naturals. -/
def sumOver (l : List Nat) (f : Nat → Nat) : Nat :=
  l.foldr (fun c acc => f c + acc) 0

/-- All leaf values over all present slots, in slot order. -/
def allLeafVals (ht : List (Option Slot)) : List Nat :=
  concatAll (ht.map fun s => match s with | none => [] | some sl => sl.tree.leafValues)

/-- The node array an arbitrary frequency table gives rise to: a leaf per
symbol, active exactly when its count is nonzero (GenerateTreeFromArray
produces exactly such an array, with the EOF count forced to be nonzero). -/
def slotsOfCounts (counts : Nat → Nat) : List (Option Slot) :=
  (List.range NUM_CHARS).map fun c =>
    some ⟨.leaf c (counts c), counts c == 0⟩

/-- The claim's encoder-side pipeline on a frequency table: build the tree,
extract depths, sort by (length, value), run canonical assignment. -/
def sortedCodesFromCounts (counts : Nat → Nat) : Option (List CanonEntry) :=
  (BuildHuffmanTree (slotsOfCounts counts)).map fun t =>
    AssignCanonicalCodes (List.insertionSort canonLenLE (applyDepths initCanonList (leafDepths t 0)))

/-- The right-justified integer value of an assigned code word at its own
length (the "consecutive integers" of canonical coding). -/
def codeIntAt (M : Nat) (e : CanonEntry) : Nat :=
  storedCodeVal e / 2 ^ (M - e.codeLen)

/-- Closed form of canonical assignment: consecutive entries receive the
successive partial sums of `2 ^ (M - codeLen)` as left-justified values. -/
def assignedWith (M V : Nat) : List CanonEntry → List CanonEntry
  | [] => []
  | e :: rest => ⟨e.value, e.codeLen, some ⟨M, V⟩⟩ :: assignedWith M (V + 2 ^ (M - e.codeLen)) rest

/-- Sum of `2 ^ (M - codeLen)` over a list of entries (the Kraft weight). -/
def restSum (M : Nat) (l : List CanonEntry) : Nat :=
  l.foldr (fun e acc => 2 ^ (M - e.codeLen) + acc) 0

/-- The count each symbol starts from in GenerateTreeFromArray (EOF is
assumed to occur exactly once). -/
def initialCount (c : Nat) : Nat := if c = EOF_CHAR then 1 else 0

/-- A leaf-slot array described pointwise: slot `c` holds the leaf for
symbol `c` with the given count and ignore flag.  `initialLeafSlots` and
every intermediate state of the counting loop have this shape. -/
def mkSlots (n : Nat) (cnt : Nat → Nat) (ign : Nat → Bool) : List (Option Slot) :=
  (List.range n).map fun c => some ⟨.leaf c (cnt c), ign c⟩

/-- The code length recorded for symbol `i` by a depth list: the depth of
its leaf, or 0 when the symbol has no leaf. -/
def depthLookup (ds : List (Nat × Nat)) (i : Nat) : Nat :=
  match ds.find? (fun vd => vd.1 == i) with
  | some vd => vd.2
  | none => 0

/-- A symbol-ordered canonical list with given code lengths and no code
words — the shape shared by the encoder's length-filled list and the list
the decoder rebuilds from the stored table. -/
def canonInit (f : Nat → Nat) : List CanonEntry :=
  (List.range NUM_CHARS).map fun i => ⟨i, f i, none⟩

end Squish

/-!
# Theorems
-/

namespace Squish

/-! ### Generic helpers -/

theorem concatAll_append (l1 l2 : List (List α)) :
    concatAll (l1 ++ l2) = concatAll l1 ++ concatAll l2 := by
  induction l1 with
  | nil => rfl
  | cons x xs ih => simp [concatAll, ih]

theorem concatAll_cons (x : List α) (ls : List (List α)) :
    concatAll (x :: ls) = x ++ concatAll ls := rfl

/-! ### Lexicographic key facts (proved by omega after unfolding) -/

theorem lexLT_trans {a b c : Nat × Nat} (h1 : lexLT a b) (h2 : lexLT b c) : lexLT a c := by
  rcases a with ⟨a1, a2⟩; rcases b with ⟨b1, b2⟩; rcases c with ⟨c1, c2⟩
  simp only [lexLT] at *; omega

theorem lexLT_resolve {a b : Nat × Nat} (h : ¬ lexLT a b) : lexLT b a ∨ b = a := by
  rcases a with ⟨a1, a2⟩; rcases b with ⟨b1, b2⟩
  simp only [lexLT, Prod.mk.injEq] at *; omega

theorem lexLT_of_lexLT_of_not_lexLT {a b c : Nat × Nat}
    (h1 : lexLT a b) (h2 : ¬ lexLT c b) : lexLT a c := by
  rcases a with ⟨a1, a2⟩; rcases b with ⟨b1, b2⟩; rcases c with ⟨c1, c2⟩
  simp only [lexLT] at *; omega

/-! ### C10: destination naming -/

/-- C10: the container file created by compress is named `f` with ".sqd"
appended (not `f` itself), and the caller-supplied destination buffer is
itself mutated to hold that appended name before the file is opened. -/
theorem c10_dest_filename (f : List Nat) :
    compressOpenedFilename f = f ++ sqdExtension ∧
    compressOpenedFilename f ≠ f ∧
    compressDestBuffer f = compressOpenedFilename f := by
  refine ⟨rfl, fun h => ?_, rfl⟩
  have h2 := congrArg List.length h
  simp [compressOpenedFilename, compressDestBuffer, strcatModel, sqdExtension] at h2

/-! ### FindMinimumCount -/

theorem fmcGo_append (l1 l2 : List (Option Slot)) (i : Nat) (s : FmcState) :
    fmcGo i s (l1 ++ l2) = fmcGo (i + l1.length) (fmcGo i s l1) l2 := by
  induction l1 generalizing i s with
  | nil => simp [fmcGo]
  | cons x xs ih =>
    show fmcGo (i + 1) (fmcStep i s x) (xs ++ l2) = _
    rw [ih]
    have hlen : i + 1 + xs.length = i + (x :: xs).length := by simp; omega
    rw [hlen]
    rfl

theorem fmcStep_inactive (i : Nat) (s : FmcState) (x : Option Slot)
    (h : isActiveSlot x = false) : fmcStep i s x = s := by
  match x with
  | none => rfl
  | some sl =>
    simp only [isActiveSlot, Bool.not_eq_false'] at h
    simp [fmcStep, h]

theorem fmcGo_inactive (l : List (Option Slot)) (i : Nat) (s : FmcState)
    (h : ∀ x ∈ l, isActiveSlot x = false) : fmcGo i s l = s := by
  induction l generalizing i with
  | nil => rfl
  | cons x xs ih =>
    show fmcGo (i + 1) (fmcStep i s x) xs = s
    rw [fmcStep_inactive i s x (h x (by simp)), ih (i + 1) fun y hy => h y (by simp [hy])]

/-- The full characterization of the FindMinimumCount loop state: either no
element ever improved on the initial INT_MAX thresholds (and the state is
untouched), or the state points at the first active slot realising the
lexicographically least (count, level) key among those below the thresholds. -/
theorem fmcGo_invariant (l : List (Option Slot)) :
    ((fmcGo 0 fmcInit l).currentIndex = none →
      fmcGo 0 fmcInit l = fmcInit ∧
        ∀ j sl, j < l.length → l.getD j none = some sl → sl.ignore = false →
          ¬ lexLT (slotKey sl) (INT_MAX, INT_MAX)) ∧
    (∀ m, (fmcGo 0 fmcInit l).currentIndex = some m →
      m < l.length ∧ ∃ sl, l.getD m none = some sl ∧ sl.ignore = false ∧
        (fmcGo 0 fmcInit l).currentCount = sl.tree.count ∧
        (fmcGo 0 fmcInit l).currentLevel = sl.tree.level ∧
        lexLT (slotKey sl) (INT_MAX, INT_MAX) ∧
        ∀ j sl2, j < l.length → l.getD j none = some sl2 → sl2.ignore = false →
          lexLT (slotKey sl) (slotKey sl2) ∨ (slotKey sl = slotKey sl2 ∧ m ≤ j)) := by
  induction l using List.reverseRecOn with
  | nil =>
    constructor
    · intro _
      exact ⟨rfl, fun j sl hj => by simp at hj⟩
    · intro m hm
      simp [fmcGo, fmcInit] at hm
  | append_singleton l x ih =>
    have hgetlt : ∀ (y : Option Slot) (j : Nat), j < l.length →
        (l ++ [y]).getD j none = l.getD j none := by
      intro y j hj
      simp [List.getD, List.getElem?_append_left hj]
    have hgeteq : ∀ (y : Option Slot), (l ++ [y]).getD l.length none = y := by
      intro y
      simp [List.getD]
    cases x with
    | none =>
      have hstep2 : fmcGo 0 fmcInit (l ++ [none]) = fmcGo 0 fmcInit l := by
        rw [fmcGo_append]
        simp [fmcGo, fmcStep]
      rw [hstep2]
      constructor
      · intro hnone
        obtain ⟨heq, hall⟩ := ih.1 hnone
        refine ⟨heq, fun j sl2 hj hsl2 hign => ?_⟩
        rcases Nat.lt_or_ge j l.length with hlt | hge
        · exact hall j sl2 hlt ((hgetlt none j hlt) ▸ hsl2) hign
        · have hj2 : j = l.length := by simp at hj; omega
          rw [hj2, hgeteq] at hsl2
          exact absurd hsl2 (by simp)
      · intro m hm
        obtain ⟨hmlt, sl0, hget0, hign0, hcc, hcl, hlx, hmin⟩ := ih.2 m hm
        refine ⟨by simp; omega, sl0, (hgetlt none m hmlt).symm ▸ hget0, hign0, hcc, hcl, hlx, ?_⟩
        intro j sl2 hj hsl2 hign2
        rcases Nat.lt_or_ge j l.length with hlt | hge
        · exact hmin j sl2 hlt ((hgetlt none j hlt) ▸ hsl2) hign2
        · have hj2 : j = l.length := by simp at hj; omega
          rw [hj2, hgeteq] at hsl2
          exact absurd hsl2 (by simp)
    | some sl =>
      have hstep : fmcGo 0 fmcInit (l ++ [some sl]) =
          fmcStep l.length (fmcGo 0 fmcInit l) (some sl) := by
        rw [fmcGo_append]
        simp [fmcGo]
      set f := fmcGo 0 fmcInit l with hf
      by_cases hC : sl.ignore = false ∧
          (sl.tree.count < f.currentCount ∨
            (sl.tree.count = f.currentCount ∧ sl.tree.level < f.currentLevel))
      · -- the node improves on the running minimum: it is selected
        have hstep2 : fmcGo 0 fmcInit (l ++ [some sl]) =
            ⟨some l.length, sl.tree.count, sl.tree.level⟩ := by
          rw [hstep, fmcStep, if_pos hC]
        rw [hstep2]
        constructor
        · intro hnone
          simp at hnone
        · intro m hm
          simp at hm
          subst hm
          have hbelow : lexLT (slotKey sl) (INT_MAX, INT_MAX) := by
            rcases hidx : f.currentIndex with _ | m0
            · obtain ⟨heqf, _⟩ := ih.1 hidx
              have hcc2 : f.currentCount = INT_MAX ∧ f.currentLevel = INT_MAX := by
                rw [heqf]; exact ⟨rfl, rfl⟩
              simp only [lexLT, slotKey]
              rcases hC.2 with h | h
              · exact Or.inl (by omega)
              · exact Or.inr (by constructor <;> omega)
            · obtain ⟨_, sl0, _, _, hcc, hcl, hlx0, _⟩ := ih.2 m0 hidx
              have hlt0 : lexLT (slotKey sl) (slotKey sl0) := by
                simp only [lexLT, slotKey] at *
                rcases hC.2 with h | h
                · exact Or.inl (by omega)
                · exact Or.inr (by constructor <;> omega)
              exact lexLT_trans hlt0 hlx0
          refine ⟨by simp, sl, hgeteq (some sl), hC.1, rfl, rfl, hbelow, ?_⟩
          intro j sl2 hj hsl2 hign2
          rcases Nat.lt_or_ge j l.length with hlt | hge
          · rw [hgetlt (some sl) j hlt] at hsl2
            rcases hidx : f.currentIndex with _ | m0
            · obtain ⟨heqf, hall⟩ := ih.1 hidx
              have hnl : ¬ lexLT (slotKey sl2) (INT_MAX, INT_MAX) := hall j sl2 hlt hsl2 hign2
              exact Or.inl (lexLT_of_lexLT_of_not_lexLT hbelow hnl)
            · obtain ⟨_, sl0, _, _, hcc, hcl, _, hmin0⟩ := ih.2 m0 hidx
              have hlt0 : lexLT (slotKey sl) (slotKey sl0) := by
                simp only [lexLT, slotKey] at *
                rcases hC.2 with h | h
                · exact Or.inl (by omega)
                · exact Or.inr (by constructor <;> omega)
              rcases hmin0 j sl2 hlt hsl2 hign2 with h | ⟨heq, _⟩
              · exact Or.inl (lexLT_trans hlt0 h)
              · exact Or.inl (heq ▸ hlt0)
          · have hj2 : j = l.length := by simp at hj; omega
            rw [hj2, hgeteq (some sl)] at hsl2
            have hsl2eq : sl2 = sl := by injection hsl2 with h; exact h.symm
            subst hsl2eq
            exact Or.inr ⟨rfl, by omega⟩
      · -- no improvement: the state is unchanged
        have hstep2 : fmcGo 0 fmcInit (l ++ [some sl]) = f := by
          rw [hstep, fmcStep, if_neg hC]
        rw [hstep2]
        constructor
        · intro hnone
          obtain ⟨heqf, hall⟩ := ih.1 hnone
          refine ⟨heqf, fun j sl2 hj hsl2 hign2 => ?_⟩
          rcases Nat.lt_or_ge j l.length with hlt | hge
          · exact hall j sl2 hlt ((hgetlt (some sl) j hlt) ▸ hsl2) hign2
          · have hj2 : j = l.length := by simp at hj; omega
            rw [hj2, hgeteq (some sl)] at hsl2
            have hsl2eq : sl2 = sl := by injection hsl2 with h; exact h.symm
            subst hsl2eq
            intro hlx
            apply hC
            have hcc2 : f.currentCount = INT_MAX ∧ f.currentLevel = INT_MAX := by
              rw [heqf]; exact ⟨rfl, rfl⟩
            simp only [lexLT, slotKey] at hlx
            refine ⟨hign2, ?_⟩
            rcases hlx with h | h
            · exact Or.inl (by omega)
            · exact Or.inr (by constructor <;> omega)
        · intro m hm
          obtain ⟨hmlt, sl0, hget0, hign0, hcc, hcl, hlx, hmin⟩ := ih.2 m hm
          refine ⟨by simp; omega, sl0, (hgetlt (some sl) m hmlt).symm ▸ hget0, hign0, hcc, hcl, hlx, ?_⟩
          intro j sl2 hj hsl2 hign2
          rcases Nat.lt_or_ge j l.length with hlt | hge
          · exact hmin j sl2 hlt ((hgetlt (some sl) j hlt) ▸ hsl2) hign2
          · have hj2 : j = l.length := by simp at hj; omega
            rw [hj2, hgeteq (some sl)] at hsl2
            have hsl2eq : sl2 = sl := by injection hsl2 with h; exact h.symm
            subst hsl2eq
            have hnot : ¬ lexLT (slotKey sl2) (f.currentCount, f.currentLevel) := by
              intro hlx2
              apply hC
              simp only [lexLT, slotKey] at hlx2
              refine ⟨hign2, ?_⟩
              rcases hlx2 with h | h
              · exact Or.inl (by omega)
              · exact Or.inr (by constructor <;> omega)
            have hkey0 : (f.currentCount, f.currentLevel) = slotKey sl0 := by
              simp [slotKey, hcc, hcl]
            rw [hkey0] at hnot
            rcases lexLT_resolve hnot with h | h
            · exact Or.inl h
            · exact Or.inr ⟨h, by omega⟩

theorem getD_mem {α : Type _} (l : List α) (d : α) (j : Nat) (hj : j < l.length) :
    l.getD j d ∈ l := by
  rw [List.getD_eq_getElem?_getD, List.getElem?_eq_getElem hj]
  exact List.getElem_mem hj

theorem mem_getD {α : Type _} (l : List α) (d : α) (x : α) (hx : x ∈ l) :
    ∃ j, j < l.length ∧ l.getD j d = x := by
  obtain ⟨j, hj, he⟩ := List.getElem_of_mem hx
  exact ⟨j, hj, by rw [List.getD_eq_getElem?_getD, List.getElem?_eq_getElem hj]; exact he⟩

/-- FindMinimumCount returns an index of an active slot whose count is at
most INT_MAX whenever it returns one at all. -/
theorem fmc_some_spec (ht : List (Option Slot)) (m : Nat)
    (hm : FindMinimumCount ht = some m) :
    m < ht.length ∧ ∃ sl, ht.getD m none = some sl ∧ sl.ignore = false ∧
      sl.tree.count ≤ INT_MAX ∧
      ∀ j sl2, j < ht.length → ht.getD j none = some sl2 → sl2.ignore = false →
        lexLT (slotKey sl) (slotKey sl2) ∨ (slotKey sl = slotKey sl2 ∧ m ≤ j) := by
  obtain ⟨hmlt, sl, hget, hign, _, _, hlx, hmin⟩ := (fmcGo_invariant ht).2 m hm
  refine ⟨hmlt, sl, hget, hign, ?_, hmin⟩
  simp only [lexLT, slotKey] at hlx
  omega

/-- If some active slot has count below INT_MAX, FindMinimumCount finds one. -/
theorem fmc_some_of_active (ht : List (Option Slot))
    (h : ∃ j sl, j < ht.length ∧ ht.getD j none = some sl ∧ sl.ignore = false ∧
      sl.tree.count < INT_MAX) :
    ∃ m, FindMinimumCount ht = some m := by
  obtain ⟨j, sl, hj, hget, hign, hcnt⟩ := h
  rcases hres : FindMinimumCount ht with _ | m
  · obtain ⟨_, hall⟩ := (fmcGo_invariant ht).1 hres
    have := hall j sl hj hget hign
    simp only [lexLT, slotKey] at this
    omega
  · exact ⟨m, rfl⟩

/-- If every slot is inactive, FindMinimumCount returns NONE. -/
theorem fmc_none_of_inactive (ht : List (Option Slot))
    (h : ∀ s ∈ ht, isActiveSlot s = false) : FindMinimumCount ht = none := by
  unfold FindMinimumCount
  rw [fmcGo_inactive ht 0 fmcInit h]
  rfl

/-! ### C7: minimum-pair selection -/

/-- C7 counterexample: an array holding a single active node of count
2 ^ 31 (a representable `count_t` value).  FindMinimumCount returns NONE
even though an active node remains, because the initial threshold is the C
`int` INT_MAX: the claim that NONE is returned exactly when no active node
remains is false as stated. -/
theorem c7_counterexample :
    FindMinimumCount [some ⟨.leaf 0 2147483648, false⟩] = none ∧
    isActiveSlot ([some (⟨.leaf 0 2147483648, false⟩ : Slot)].getD 0 none) = true := by
  constructor
  · decide
  · decide

/-- C7 (amended): provided every active node's count is below INT_MAX,
FindMinimumCount returns NONE exactly when no active node remains, and
otherwise selects an active node of smallest count, preferring the smaller
level on count ties (and the smallest index when both tie).  The two nodes
BuildHuffmanTree merges per iteration are obtained by exactly these calls on
the current array. -/
theorem c7_find_minimum_spec (ht : List (Option Slot))
    (hcnt : ∀ x ∈ ht, ∀ sl, x = some sl → sl.ignore = false → sl.tree.count < INT_MAX) :
    (FindMinimumCount ht = none ↔ ∀ s ∈ ht, isActiveSlot s = false) ∧
    (∀ m, FindMinimumCount ht = some m →
      ∃ sl, ht.getD m none = some sl ∧ sl.ignore = false ∧
        ∀ j sl2, j < ht.length → ht.getD j none = some sl2 → sl2.ignore = false →
          sl.tree.count < sl2.tree.count ∨
          (sl.tree.count = sl2.tree.count ∧ sl.tree.level < sl2.tree.level) ∨
          (sl.tree.count = sl2.tree.count ∧ sl.tree.level = sl2.tree.level ∧ m ≤ j)) := by
  constructor
  · constructor
    · intro hres s hs
      obtain ⟨_, hall⟩ := (fmcGo_invariant ht).1 hres
      rcases s with _ | sl
      · rfl
      · by_contra hact
        simp only [isActiveSlot, Bool.not_eq_false', Bool.not_eq_true] at hact
        have hign : sl.ignore = false := by
          revert hact
          cases sl.ignore <;> simp
        obtain ⟨j, hj, hget⟩ := mem_getD ht none (some sl) hs
        have hnl := hall j sl hj hget hign
        have hlt := hcnt (some sl) hs sl rfl hign
        simp only [lexLT, slotKey] at hnl
        omega
    · exact fun h => fmc_none_of_inactive ht h
  · intro m hm
    obtain ⟨hmlt, sl, hget, hign, _, hmin⟩ := fmc_some_spec ht m hm
    refine ⟨sl, hget, hign, fun j sl2 hj hget2 hign2 => ?_⟩
    rcases hmin j sl2 hj hget2 hign2 with h | ⟨heq, hle⟩
    · simp only [lexLT, slotKey] at h
      omega
    · simp only [slotKey, Prod.mk.injEq] at heq
      exact Or.inr (Or.inr ⟨heq.1, heq.2, hle⟩)

/-- Witness for the amended C7 theorem at a concrete two-slot array. -/
theorem c7_find_minimum_spec_witness :
    (FindMinimumCount [some ⟨.leaf 3 1, false⟩, none] = none ↔
      ∀ s ∈ [some (⟨.leaf 3 1, false⟩ : Slot), none], isActiveSlot s = false) ∧
    (∀ m, FindMinimumCount [some ⟨.leaf 3 1, false⟩, none] = some m →
      ∃ sl, [some (⟨.leaf 3 1, false⟩ : Slot), none].getD m none = some sl ∧
        sl.ignore = false ∧
        ∀ j sl2, j < [some (⟨.leaf 3 1, false⟩ : Slot), none].length →
          [some (⟨.leaf 3 1, false⟩ : Slot), none].getD j none = some sl2 →
          sl2.ignore = false →
          sl.tree.count < sl2.tree.count ∨
          (sl.tree.count = sl2.tree.count ∧ sl.tree.level < sl2.tree.level) ∨
          (sl.tree.count = sl2.tree.count ∧ sl.tree.level = sl2.tree.level ∧ m ≤ j)) :=
  c7_find_minimum_spec [some ⟨.leaf 3 1, false⟩, none] (by decide)

/-! ### The counting loop of GenerateTreeFromArray -/

theorem mkSlots_length (n : Nat) (cnt : Nat → Nat) (ign : Nat → Bool) :
    (mkSlots n cnt ign).length = n := by
  simp [mkSlots]

theorem mkSlots_getD (n : Nat) (cnt : Nat → Nat) (ign : Nat → Bool) (c : Nat) (hc : c < n) :
    (mkSlots n cnt ign).getD c none = some ⟨.leaf c (cnt c), ign c⟩ := by
  rw [List.getD_eq_getElem?_getD]
  simp [mkSlots, List.getElem?_map, List.getElem?_range hc]

theorem mkSlots_congr (n : Nat) (cnt cnt2 : Nat → Nat) (ign ign2 : Nat → Bool)
    (h : ∀ c < n, cnt c = cnt2 c ∧ ign c = ign2 c) :
    mkSlots n cnt ign = mkSlots n cnt2 ign2 := by
  unfold mkSlots
  apply List.map_congr_left
  intro c hc
  rw [List.mem_range] at hc
  rw [(h c hc).1, (h c hc).2]

theorem mkSlots_set (n : Nat) (cnt : Nat → Nat) (ign : Nat → Bool) (c v : Nat) (b : Bool)
    (hc : c < n) :
    (mkSlots n cnt ign).set c (some ⟨.leaf c v, b⟩) =
      mkSlots n (fun x => if x = c then v else cnt x) (fun x => if x = c then b else ign x) := by
  apply List.ext_getElem?
  intro i
  by_cases hic : i = c
  · subst hic
    rw [List.getElem?_set_self (by simp [mkSlots]; omega)]
    simp [mkSlots, List.getElem?_map, List.getElem?_range hc]
  · rw [List.getElem?_set_ne (fun h => hic h.symm)]
    by_cases hin : i < n
    · simp [mkSlots, List.getElem?_map, List.getElem?_range hin, hic]
    · have h1 : (List.range n)[i]? = none := by
        rw [List.getElem?_eq_none]
        simp; omega
      simp [mkSlots, List.getElem?_map, h1]

theorem countSymbols_cons (ht : List (Option Slot)) (d : Nat) (rest : List Nat) :
    countSymbols ht (d :: rest) =
      match countSymbol ht d with
      | none => none
      | some ht2 => countSymbols ht2 rest := rfl

theorem countSymbols_cons_none (ht : List (Option Slot)) (d : Nat) (rest : List Nat)
    (h : countSymbol ht d = none) : countSymbols ht (d :: rest) = none := by
  rw [countSymbols_cons, h]

theorem countSymbols_cons_some (ht : List (Option Slot)) (d : Nat) (rest : List Nat)
    (ht2 : List (Option Slot)) (h : countSymbol ht d = some ht2) :
    countSymbols ht (d :: rest) = countSymbols ht2 rest := by
  rw [countSymbols_cons, h]

theorem countSymbol_mkSlots (n : Nat) (cnt : Nat → Nat) (ign : Nat → Bool) (c : Nat)
    (hc : c < n) :
    countSymbol (mkSlots n cnt ign) c =
      if cnt c < COUNT_T_MAX then
        some (mkSlots n (fun x => if x = c then cnt c + 1 else cnt x)
          (fun x => if x = c then false else ign x))
      else none := by
  have h1 : countSymbol (mkSlots n cnt ign) c =
      if cnt c < COUNT_T_MAX then
        some ((mkSlots n cnt ign).set c (some ⟨.leaf c (cnt c + 1), false⟩))
      else none := by
    unfold countSymbol
    rw [mkSlots_length, if_pos hc, mkSlots_getD n cnt ign c hc]
  rw [h1]
  by_cases hlt : cnt c < COUNT_T_MAX
  · rw [if_pos hlt, if_pos hlt, mkSlots_set n cnt ign c (cnt c + 1) false hc]
  · rw [if_neg hlt, if_neg hlt]

theorem count_cons_self (d : Nat) (rest : List Nat) :
    (d :: rest).count d = rest.count d + 1 := by
  rw [List.count_cons]
  simp

theorem count_cons_ne (c d : Nat) (rest : List Nat) (h : ¬ c = d) :
    (d :: rest).count c = rest.count c := by
  rw [List.count_cons]
  have hne : ¬ d = c := by omega
  simp [hne]

/-- Success of the counting loop: when no symbol's running count would pass
COUNT_T_MAX, the loop adds each symbol's number of occurrences to its count
and clears the ignore flag of every symbol that occurs. -/
theorem countSymbols_success (data : List Nat) : ∀ (cnt : Nat → Nat) (ign : Nat → Bool),
    (∀ c ∈ data, c < NUM_CHARS) →
    (∀ c, cnt c + data.count c ≤ COUNT_T_MAX) →
    countSymbols (mkSlots NUM_CHARS cnt ign) data =
      some (mkSlots NUM_CHARS (fun c => cnt c + data.count c)
        (fun c => ign c && (data.count c == 0))) := by
  induction data with
  | nil =>
    intro cnt ign _ _
    unfold countSymbols
    refine congrArg some ?_
    apply mkSlots_congr
    intro c _
    simp
  | cons d rest ih =>
    intro cnt ign hin hbound
    have hd : d < NUM_CHARS := hin d (by simp)
    have hcnt_lt : cnt d < COUNT_T_MAX := by
      have h1 := hbound d
      have h2 := count_cons_self d rest
      omega
    rw [countSymbols_cons_some _ _ _ _
      (by rw [countSymbol_mkSlots NUM_CHARS cnt ign d hd, if_pos hcnt_lt])]
    have hbound2 : ∀ c, (fun x => if x = d then cnt d + 1 else cnt x) c + rest.count c ≤
        COUNT_T_MAX := by
      intro c
      show (if c = d then cnt d + 1 else cnt c) + rest.count c ≤ COUNT_T_MAX
      by_cases hcd : c = d
      · subst hcd
        have h1 := hbound c
        have h2 := count_cons_self c rest
        rw [if_pos rfl]
        omega
      · have h1 := hbound c
        have h2 := count_cons_ne c d rest hcd
        rw [if_neg hcd]
        omega
    refine (ih _ _ (fun c hcm => hin c (by simp [hcm])) hbound2).trans ?_
    refine congrArg some ?_
    apply mkSlots_congr
    intro c _
    constructor
    · show (if c = d then cnt d + 1 else cnt c) + rest.count c = cnt c + (d :: rest).count c
      by_cases hcd : c = d
      · subst hcd
        have h2 := count_cons_self c rest
        rw [if_pos rfl]
        omega
      · have h2 := count_cons_ne c d rest hcd
        rw [if_neg hcd]
        omega
    · show ((if c = d then false else ign c) && (rest.count c == 0)) =
          (ign c && ((d :: rest).count c == 0))
      by_cases hcd : c = d
      · subst hcd
        rw [if_pos rfl, count_cons_self]
        simp
      · rw [if_neg hcd, count_cons_ne c d rest hcd]

/-- Failure of the counting loop: as soon as some symbol's initial count
plus its number of occurrences would pass COUNT_T_MAX, the loop aborts. -/
theorem countSymbols_overflow (data : List Nat) : ∀ (cnt : Nat → Nat) (ign : Nat → Bool),
    (∀ c ∈ data, c < NUM_CHARS) →
    (∀ c, cnt c ≤ COUNT_T_MAX) →
    (∃ c, c < NUM_CHARS ∧ cnt c + data.count c > COUNT_T_MAX) →
    countSymbols (mkSlots NUM_CHARS cnt ign) data = none := by
  induction data with
  | nil =>
    intro cnt ign _ hbound hov
    obtain ⟨c, _, hc⟩ := hov
    have := hbound c
    simp at hc
    omega
  | cons d rest ih =>
    intro cnt ign hin hbound hov
    have hd : d < NUM_CHARS := hin d (by simp)
    by_cases hlt : cnt d < COUNT_T_MAX
    · rw [countSymbols_cons_some _ _ _ _
        (by rw [countSymbol_mkSlots NUM_CHARS cnt ign d hd, if_pos hlt])]
      apply ih _ _ (fun c hcm => hin c (by simp [hcm]))
      · intro c
        show (if c = d then cnt d + 1 else cnt c) ≤ COUNT_T_MAX
        by_cases hcd : c = d
        · subst hcd; rw [if_pos rfl]; omega
        · rw [if_neg hcd]; exact hbound c
      · obtain ⟨c, hcn, hc⟩ := hov
        refine ⟨c, hcn, ?_⟩
        show (if c = d then cnt d + 1 else cnt c) + rest.count c > COUNT_T_MAX
        by_cases hcd : c = d
        · subst hcd
          have h2 := count_cons_self c rest
          rw [if_pos rfl]
          omega
        · have h2 := count_cons_ne c d rest hcd
          rw [if_neg hcd]
          omega
    · exact countSymbols_cons_none _ _ _
        (by rw [countSymbol_mkSlots NUM_CHARS cnt ign d hd, if_neg hlt])

/-- One counting step keeps every slot count at or below COUNT_T_MAX. -/
theorem countSymbol_counts_le (ht : List (Option Slot)) (d : Nat) (ht3 : List (Option Slot))
    (h : countSymbol ht d = some ht3)
    (hb : ∀ x ∈ ht, ∀ sl, x = some sl → sl.tree.count ≤ COUNT_T_MAX) :
    ∀ x ∈ ht3, ∀ sl, x = some sl → sl.tree.count ≤ COUNT_T_MAX := by
  unfold countSymbol at h
  split at h
  case isFalse => exact absurd h (by simp)
  split at h
  case h_2 => exact absurd h (by simp)
  case h_1 v cnt0 ig heq =>
    split at h
    case isFalse => exact absurd h (by simp)
    case isTrue hlt =>
      injection h with h
      subst h
      intro x hx sl2 hx2
      rcases List.mem_or_eq_of_mem_set hx with hx3 | hx3
      · exact hb x hx3 sl2 hx2
      · subst hx3
        injection hx2 with hx2
        subst hx2
        show HuffTree.count (.leaf v (cnt0 + 1)) ≤ COUNT_T_MAX
        simp only [HuffTree.count]
        omega

/-- The guard keeps every slot count at or below COUNT_T_MAX throughout the
counting loop: counts never wrap. -/
theorem countSymbols_counts_le (data : List Nat) : ∀ ht ht2,
    countSymbols ht data = some ht2 →
    (∀ x ∈ ht, ∀ sl, x = some sl → sl.tree.count ≤ COUNT_T_MAX) →
    ∀ x ∈ ht2, ∀ sl, x = some sl → sl.tree.count ≤ COUNT_T_MAX := by
  induction data with
  | nil =>
    intro ht ht2 hc hb
    injection hc with hc
    exact hc ▸ hb
  | cons d rest ih =>
    intro ht ht2 hc hb
    rcases hcs : countSymbol ht d with _ | ht3
    · rw [countSymbols_cons_none ht d rest hcs] at hc
      exact absurd hc (by simp)
    · rw [countSymbols_cons_some ht d rest ht3 hcs] at hc
      exact ih ht3 ht2 hc (countSymbol_counts_le ht d ht3 hcs hb)

/-! ### BuildHuffmanTree stepping lemmas -/

theorem buildLoop_succ_none (fuel : Nat) (ht : List (Option Slot))
    (h : FindMinimumCount ht = none) : buildLoop (fuel + 1) ht = none := by
  unfold buildLoop
  rw [h]

theorem buildLoop_succ_last (fuel : Nat) (ht : List (Option Slot)) (m1 : Nat)
    (h1 : FindMinimumCount ht = some m1)
    (h2 : FindMinimumCount (markIgnore ht m1) = none) :
    buildLoop (fuel + 1) ht = ((markIgnore ht m1).getD m1 none).map (·.tree) := by
  unfold buildLoop
  rw [h1]
  dsimp only
  rw [h2]

theorem buildLoop_succ_merge (fuel : Nat) (ht : List (Option Slot)) (m1 m2 : Nat)
    (s1 s2 : Slot)
    (h1 : FindMinimumCount ht = some m1)
    (h2 : FindMinimumCount (markIgnore ht m1) = some m2)
    (h3 : (markIgnore ht m1).getD m1 none = some s1)
    (h4 : (markIgnore ht m1).getD m2 none = some s2) :
    buildLoop (fuel + 1) ht = buildLoop fuel
      (((markIgnore ht m1).set m1 (some ⟨.comp s1.tree s2.tree, false⟩)).set m2 none) := by
  conv_lhs => unfold buildLoop
  rw [h1]
  dsimp only
  rw [h2]
  dsimp only
  rw [h3, h4]

theorem markIgnore_mkSlots (n : Nat) (cnt : Nat → Nat) (ign : Nat → Bool) (c0 : Nat)
    (hc : c0 < n) :
    markIgnore (mkSlots n cnt ign) c0 =
      mkSlots n cnt (fun x => if x = c0 then true else ign x) := by
  unfold markIgnore
  rw [mkSlots_getD n cnt ign c0 hc]
  show (mkSlots n cnt ign).set c0 (some ⟨.leaf c0 (cnt c0), true⟩) = _
  rw [mkSlots_set n cnt ign c0 (cnt c0) true hc]
  apply mkSlots_congr
  intro c _
  constructor
  · by_cases h : c = c0 <;> simp [h]
  · rfl

theorem fmc_mkSlots_none (n : Nat) (cnt : Nat → Nat) (ign : Nat → Bool)
    (h : ∀ c < n, ign c = true) : FindMinimumCount (mkSlots n cnt ign) = none := by
  apply fmc_none_of_inactive
  intro s hs
  simp only [mkSlots, List.mem_map, List.mem_range] at hs
  obtain ⟨c, hc, he⟩ := hs
  rw [← he]
  simp [isActiveSlot, h c hc]

theorem fmc_mkSlots_single (n : Nat) (cnt : Nat → Nat) (ign : Nat → Bool) (c0 : Nat)
    (hc0 : c0 < n) (hign : ∀ c < n, (ign c = false ↔ c = c0)) (hcnt : cnt c0 < INT_MAX) :
    FindMinimumCount (mkSlots n cnt ign) = some c0 := by
  obtain ⟨m, hm⟩ := fmc_some_of_active (mkSlots n cnt ign)
    ⟨c0, ⟨.leaf c0 (cnt c0), ign c0⟩, by rw [mkSlots_length]; exact hc0,
      mkSlots_getD n cnt ign c0 hc0, (hign c0 hc0).mpr rfl, hcnt⟩
  obtain ⟨hmlt, sl, hget, hignm, _, _⟩ := fmc_some_spec _ m hm
  rw [mkSlots_length] at hmlt
  rw [mkSlots_getD n cnt ign m hmlt] at hget
  injection hget with hget2
  have hii : ign m = false := by
    rw [← hget2] at hignm
    exact hignm
  rw [hm]
  congr 1
  exact (hign m hmlt).mp hii

/-- Tree building when exactly one slot is active: the returned tree is that
slot's leaf (the one-symbol case of the builder). -/
theorem buildLoop_single_active (fuel n : Nat) (cnt : Nat → Nat) (ign : Nat → Bool)
    (c0 : Nat) (hc0 : c0 < n) (hign : ∀ c < n, (ign c = false ↔ c = c0))
    (hcnt : cnt c0 < INT_MAX) :
    buildLoop (fuel + 1) (mkSlots n cnt ign) = some (.leaf c0 (cnt c0)) := by
  have h1 := fmc_mkSlots_single n cnt ign c0 hc0 hign hcnt
  have hmark := markIgnore_mkSlots n cnt ign c0 hc0
  have h2 : FindMinimumCount (markIgnore (mkSlots n cnt ign) c0) = none := by
    rw [hmark]
    apply fmc_mkSlots_none
    intro c hc
    by_cases h : c = c0
    · simp [h]
    · rw [if_neg h]
      rcases hb : ign c with _ | _
      · exact absurd ((hign c hc).mp hb) h
      · rfl
  rw [buildLoop_succ_last fuel _ c0 h1 h2, hmark,
    mkSlots_getD n cnt _ c0 hc0]
  rfl

theorem BuildHuffmanTree_single_active (n : Nat) (cnt : Nat → Nat) (ign : Nat → Bool)
    (c0 : Nat) (hc0 : c0 < n) (hign : ∀ c < n, (ign c = false ↔ c = c0))
    (hcnt : cnt c0 < INT_MAX) :
    BuildHuffmanTree (mkSlots n cnt ign) = some (.leaf c0 (cnt c0)) := by
  unfold BuildHuffmanTree
  rw [mkSlots_length]
  exact buildLoop_single_active n n cnt ign c0 hc0 hign hcnt

theorem initialLeafSlots_eq :
    initialLeafSlots =
      mkSlots NUM_CHARS initialCount (fun c => if c = EOF_CHAR then false else true) := rfl

/-! ### Generic reduction lemmas for the encoder pipeline -/

theorem GenerateTree_none_of (data : List Nat)
    (h : countSymbols initialLeafSlots data = none) :
    GenerateTreeFromArray data = none := by
  unfold GenerateTreeFromArray
  rw [h]

theorem GenerateTree_some_of (data : List Nat) (ht : List (Option Slot))
    (h : countSymbols initialLeafSlots data = some ht) :
    GenerateTreeFromArray data = BuildHuffmanTree ht := by
  unfold GenerateTreeFromArray
  rw [h]

theorem CHuffman_none_of (data : List Nat)
    (h : GenerateTreeFromArray data = none) : CHuffmanEncodeArray data = none := by
  unfold CHuffmanEncodeArray
  rw [h]

theorem CHuffman_some_of (data : List Nat) (t : HuffTree)
    (h : GenerateTreeFromArray data = some t) :
    CHuffmanEncodeArray data = some
      ⟨⟨encodedSize (BuildCanonicalCode t) data,
        bitsToVal (encodeBitsList (BuildCanonicalCode t) data)⟩,
        BuildCanonicalCode t, encodedSize (BuildCanonicalCode t) data⟩ := by
  unfold CHuffmanEncodeArray
  rw [h]

/-! ### C9: symbol-count overflow -/

/-- C9: when some symbol's occurrence count (plus the forced 1 for EOF)
would exceed COUNT_T_MAX, tree generation and hence the whole compression
attempt fail with no encoded output; and the guard keeps every stored count
at or below COUNT_T_MAX in every successful counting run, so counts never
wrap around. -/
theorem c9_count_overflow (data : List Nat)
    (hin : ∀ c ∈ data, c < NUM_CHARS)
    (hov : ∃ c, c < NUM_CHARS ∧ initialCount c + data.count c > COUNT_T_MAX) :
    GenerateTreeFromArray data = none ∧ CHuffmanEncodeArray data = none ∧
    (∀ data2 ht2, countSymbols initialLeafSlots data2 = some ht2 →
      ∀ x ∈ ht2, ∀ sl, x = some sl → sl.tree.count ≤ COUNT_T_MAX) := by
  have hinit_le : ∀ x ∈ initialLeafSlots, ∀ sl, x = some sl →
      sl.tree.count ≤ COUNT_T_MAX := by
    intro x hx sl hsl
    rw [initialLeafSlots_eq] at hx
    simp only [mkSlots, List.mem_map, List.mem_range] at hx
    obtain ⟨c, _, he⟩ := hx
    rw [← he] at hsl
    injection hsl with hsl
    rw [← hsl]
    show initialCount c ≤ COUNT_T_MAX
    unfold initialCount COUNT_T_MAX
    split <;> omega
  have h1 : countSymbols initialLeafSlots data = none := by
    rw [initialLeafSlots_eq]
    apply countSymbols_overflow data initialCount _ hin
    · intro c
      unfold initialCount COUNT_T_MAX
      split <;> omega
    · exact hov
  refine ⟨GenerateTree_none_of data h1,
    CHuffman_none_of data (GenerateTree_none_of data h1), ?_⟩
  intro data2 ht2 hc
  exact countSymbols_counts_le data2 initialLeafSlots ht2 hc hinit_le

/-- Witness for C9 at the concrete input holding COUNT_T_MAX occurrences of
the EOF index (whose count starts at 1). -/
theorem c9_count_overflow_witness :
    GenerateTreeFromArray (List.replicate 4294967295 65536) = none ∧
    CHuffmanEncodeArray (List.replicate 4294967295 65536) = none ∧
    (∀ data2 ht2, countSymbols initialLeafSlots data2 = some ht2 →
      ∀ x ∈ ht2, ∀ sl, x = some sl → sl.tree.count ≤ COUNT_T_MAX) :=
  c9_count_overflow (List.replicate 4294967295 65536)
    (by
      intro c hc
      rw [List.eq_of_mem_replicate hc]
      decide)
    ⟨65536, by decide, by
      have h1 : (List.replicate 4294967295 65536).count 65536 = 4294967295 := by
        rw [List.count_replicate]
        norm_num
      rw [h1]
      decide⟩

/-! ### histogram -/

theorem histogram_nil : histogram [] = List.replicate NUM_CHARS 0 := rfl

theorem histogram_cons (d : Nat) (rest : List Nat) :
    histogram (d :: rest) = (histogram rest).set d ((histogram rest).getD d 0 + 1) := rfl

theorem histogram_length (data : List Nat) : (histogram data).length = NUM_CHARS := by
  induction data with
  | nil => simp [histogram_nil]
  | cons d rest ih => rw [histogram_cons, List.length_set, ih]

theorem getD_set_self_nat (l : List Nat) (i v : Nat) (h : i < l.length) :
    (l.set i v).getD i 0 = v := by
  rw [List.getD_eq_getElem?_getD, List.getElem?_set_self h]
  rfl

theorem getD_set_ne_nat (l : List Nat) (i j v : Nat) (h : ¬ i = j) :
    (l.set i v).getD j 0 = l.getD j 0 := by
  rw [List.getD_eq_getElem?_getD, List.getElem?_set_ne h, ← List.getD_eq_getElem?_getD]

/-- The histogram table holds each in-range symbol's occurrence count. -/
theorem histogram_getD (data : List Nat) (s : Nat) (hs : s < NUM_CHARS) :
    (histogram data).getD s 0 = data.count s := by
  induction data with
  | nil =>
    rw [histogram_nil]
    have h1 : (List.replicate NUM_CHARS 0).getD s 0 = 0 := by
      rw [List.getD_eq_getElem?_getD, List.getElem?_replicate]
      simp [hs]
    rw [h1]
    simp
  | cons d rest ih =>
    rw [histogram_cons]
    by_cases hsd : s = d
    · subst hsd
      rw [getD_set_self_nat _ _ _ (by rw [histogram_length]; exact hs), ih,
        count_cons_self]
    · rw [getD_set_ne_nat _ _ _ _ (fun h => hsd h.symm), ih,
        count_cons_ne s d rest hsd]

/-! ### C6: no range check on input symbols -/

/-- C6 counterexample: an input consisting of the reserved EOF index 65536.
Neither the histogram nor tree generation fails: the histogram counts the
occurrence, and GenerateTreeFromArray returns a tree (the single EOF leaf,
its count raised to 2) — there is no range check. -/
theorem c6_counterexample :
    GenerateTreeFromArray [EOF_CHAR] = some (.leaf EOF_CHAR 2) ∧
    (histogram [EOF_CHAR]).getD EOF_CHAR 0 = 1 := by
  constructor
  · have hcount : countSymbols initialLeafSlots [EOF_CHAR] =
        some (mkSlots NUM_CHARS (fun c => initialCount c + List.count c [EOF_CHAR])
          (fun c => (if c = EOF_CHAR then false else true) && (List.count c [EOF_CHAR] == 0))) := by
      rw [initialLeafSlots_eq]
      apply countSymbols_success
      · intro c hc
        simp at hc
        rw [hc]
        decide
      · intro c
        unfold initialCount COUNT_T_MAX
        have : List.count c [EOF_CHAR] ≤ 1 := by
          simp [List.count_cons]
          split <;> omega
        split <;> omega
    rw [GenerateTree_some_of _ _ hcount]
    have h2 : BuildHuffmanTree (mkSlots NUM_CHARS
        (fun c => initialCount c + List.count c [EOF_CHAR])
        (fun c => (if c = EOF_CHAR then false else true) && (List.count c [EOF_CHAR] == 0))) =
        some (.leaf EOF_CHAR ((fun c => initialCount c + List.count c [EOF_CHAR]) EOF_CHAR)) := by
      apply BuildHuffmanTree_single_active
      · decide
      · intro c _
        by_cases h : c = EOF_CHAR
        · subst h
          simp
        · have hc0 : List.count c [EOF_CHAR] = 0 := by
            rw [count_cons_ne c EOF_CHAR [] h]
            rfl
          constructor
          · intro hfalse
            rw [if_neg h, hc0] at hfalse
            simp at hfalse
          · intro hc
            exact absurd hc h
      · show initialCount EOF_CHAR + List.count EOF_CHAR [EOF_CHAR] < INT_MAX
        decide
    rw [h2]
    decide
  · rw [histogram_getD [EOF_CHAR] EOF_CHAR (by decide)]
    decide

/-! ### Slot-array bookkeeping for the build loop -/

theorem getD_set_self_d {α : Type _} (l : List α) (i : Nat) (v d : α) (h : i < l.length) :
    (l.set i v).getD i d = v := by
  rw [List.getD_eq_getElem?_getD, List.getElem?_set_self h]
  rfl

theorem getD_set_ne_d {α : Type _} (l : List α) (i j : Nat) (v d : α) (h : i ≠ j) :
    (l.set i v).getD j d = l.getD j d := by
  rw [List.getD_eq_getElem?_getD, List.getElem?_set_ne h, ← List.getD_eq_getElem?_getD]

theorem markIgnore_length (ht : List (Option Slot)) (i : Nat) :
    (markIgnore ht i).length = ht.length := by
  unfold markIgnore
  exact List.length_set ht i _

theorem markIgnore_getD_self (ht : List (Option Slot)) (i : Nat) (sl : Slot)
    (hi : i < ht.length) (h : ht.getD i none = some sl) :
    (markIgnore ht i).getD i none = some ⟨sl.tree, true⟩ := by
  unfold markIgnore
  rw [h]
  exact getD_set_self_d ht i _ none hi

theorem markIgnore_getD_ne (ht : List (Option Slot)) (i j : Nat) (h : i ≠ j) :
    (markIgnore ht i).getD j none = ht.getD j none := by
  unfold markIgnore
  exact getD_set_ne_d ht i j _ none h

theorem numActive_cons (x : Option Slot) (l : List (Option Slot)) :
    numActive (x :: l) = (if isActiveSlot x then 1 else 0) + numActive l := by
  unfold numActive
  rw [List.filter_cons]
  split <;> simp <;> omega

theorem numActive_set (l : List (Option Slot)) : ∀ (i : Nat) (v : Option Slot),
    i < l.length →
    numActive (l.set i v) + (if isActiveSlot (l.getD i none) then 1 else 0) =
      numActive l + (if isActiveSlot v then 1 else 0) := by
  induction l with
  | nil => intro i v h; simp at h
  | cons x xs ih =>
    intro i v hi
    cases i with
    | zero =>
      show numActive (v :: xs) + _ = _
      rw [numActive_cons, numActive_cons]
      show _ + (if isActiveSlot x then 1 else 0) = _
      omega
    | succ i =>
      show numActive (x :: xs.set i v) + _ = _
      rw [numActive_cons, numActive_cons]
      have := ih i v (by simp at hi; omega)
      show _ + (if isActiveSlot (xs.getD i none) then 1 else 0) = _
      omega

theorem one_le_numActive_of_active (l : List (Option Slot)) (i : Nat) (sl : Slot)
    (hi : i < l.length) (h : l.getD i none = some sl) (ha : sl.ignore = false) :
    1 ≤ numActive l := by
  have hmem : l.getD i none ∈ l.filter isActiveSlot := by
    apply List.mem_filter.mpr
    refine ⟨getD_mem l none i hi, ?_⟩
    rw [h]
    simp [isActiveSlot, ha]
  have := List.length_pos.mpr (List.ne_nil_of_mem hmem)
  unfold numActive
  omega

theorem activeCountSum_cons (x : Option Slot) (l : List (Option Slot)) :
    activeCountSum (x :: l) = slotContrib x + activeCountSum l := rfl

theorem activeCountSum_set (l : List (Option Slot)) : ∀ (i : Nat) (v : Option Slot),
    i < l.length →
    activeCountSum (l.set i v) + slotContrib (l.getD i none) =
      activeCountSum l + slotContrib v := by
  induction l with
  | nil => intro i v h; simp at h
  | cons x xs ih =>
    intro i v hi
    cases i with
    | zero =>
      show activeCountSum (v :: xs) + _ = _
      rw [activeCountSum_cons, activeCountSum_cons]
      show _ + slotContrib x = _
      omega
    | succ i =>
      show activeCountSum (x :: xs.set i v) + _ = _
      rw [activeCountSum_cons, activeCountSum_cons]
      have := ih i v (by simp at hi; omega)
      show _ + slotContrib (xs.getD i none) = _
      omega

theorem slotContrib_le_activeSum (l : List (Option Slot)) : ∀ i, i < l.length →
    slotContrib (l.getD i none) ≤ activeCountSum l := by
  induction l with
  | nil => intro i h; simp at h
  | cons x xs ih =>
    intro i hi
    cases i with
    | zero =>
      show slotContrib x ≤ _
      rw [activeCountSum_cons]
      omega
    | succ i =>
      show slotContrib (xs.getD i none) ≤ _
      rw [activeCountSum_cons]
      have := ih i (by simp at hi; omega)
      omega

theorem pair_le_activeSum (l : List (Option Slot)) (i j : Nat) (hij : i ≠ j)
    (hi : i < l.length) (hj : j < l.length) :
    slotContrib (l.getD i none) + slotContrib (l.getD j none) ≤ activeCountSum l := by
  have h1 : activeCountSum (l.set i none) + slotContrib (l.getD i none) =
      activeCountSum l + slotContrib none := activeCountSum_set l i none hi
  have h2 : slotContrib ((l.set i none).getD j none) ≤ activeCountSum (l.set i none) :=
    slotContrib_le_activeSum (l.set i none) j (by rw [List.length_set]; exact hj)
  rw [getD_set_ne_d l i j none none hij] at h2
  have h3 : slotContrib (none : Option Slot) = 0 := rfl
  omega

theorem slotContrib_active (sl : Slot) (h : sl.ignore = false) :
    slotContrib (some sl) = sl.tree.count := by
  unfold slotContrib
  simp [isActiveSlot, h]

theorem slotContrib_inactive (sl : Slot) (h : sl.ignore = true) :
    slotContrib (some sl) = 0 := by
  unfold slotContrib
  simp [isActiveSlot, h]

/-! ### sumOver facts -/

theorem sumOver_nil (f : Nat → Nat) : sumOver [] f = 0 := rfl

theorem sumOver_cons (c : Nat) (l : List Nat) (f : Nat → Nat) :
    sumOver (c :: l) f = f c + sumOver l f := rfl

theorem sumOver_congr (l : List Nat) (f g : Nat → Nat) (h : ∀ c ∈ l, f c = g c) :
    sumOver l f = sumOver l g := by
  induction l with
  | nil => rfl
  | cons c cs ih =>
    rw [sumOver_cons, sumOver_cons, h c (by simp), ih (fun c2 hc => h c2 (by simp [hc]))]

theorem sumOver_add (l : List Nat) (f g : Nat → Nat) :
    sumOver l (fun c => f c + g c) = sumOver l f + sumOver l g := by
  induction l with
  | nil => rfl
  | cons c cs ih =>
    rw [sumOver_cons, sumOver_cons, sumOver_cons, ih]
    omega

theorem sumOver_zero (l : List Nat) : sumOver l (fun _ => 0) = 0 := by
  induction l with
  | nil => rfl
  | cons c cs ih => rw [sumOver_cons, ih]

theorem sumOver_indicator (l : List Nat) (d : Nat) (hnd : l.Nodup) (hd : d ∈ l) :
    sumOver l (fun c => if c = d then 1 else 0) = 1 := by
  induction l with
  | nil => simp at hd
  | cons c cs ih =>
    rw [sumOver_cons]
    rcases List.mem_cons.mp hd with h | h
    · rw [if_pos h.symm]
      have hnotin : d ∉ cs := by
        rw [h]
        exact (List.nodup_cons.mp hnd).1
      have hz : sumOver cs (fun c => if c = d then 1 else 0) = 0 := by
        have hcg := sumOver_congr cs (fun c => if c = d then 1 else 0) (fun _ => 0) (by
          intro c2 hc2
          show (if c2 = d then 1 else 0) = 0
          rw [if_neg]
          intro he
          rw [he] at hc2
          exact hnotin hc2)
        rw [hcg, sumOver_zero]
      omega
    · have hcd : ¬ c = d := by
        intro he
        rw [he] at hnd
        exact (List.nodup_cons.mp hnd).1 h
      rw [if_neg hcd, ih (List.nodup_cons.mp hnd).2 h]

theorem sumOver_count (data : List Nat) (n : Nat) (h : ∀ c ∈ data, c < n) :
    sumOver (List.range n) (fun c => data.count c) = data.length := by
  induction data with
  | nil =>
    have : sumOver (List.range n) (fun c => List.count c ([] : List Nat)) =
        sumOver (List.range n) (fun _ => 0) := by
      apply sumOver_congr
      intro c _
      simp
    rw [this, sumOver_zero]
    rfl
  | cons d rest ih =>
    have hstep : sumOver (List.range n) (fun c => (d :: rest).count c) =
        sumOver (List.range n) (fun c => rest.count c + (if c = d then 1 else 0)) := by
      apply sumOver_congr
      intro c _
      by_cases hcd : c = d
      · subst hcd
        rw [count_cons_self, if_pos rfl]
      · rw [count_cons_ne c d rest hcd, if_neg hcd]
        omega
    rw [hstep, sumOver_add, ih (fun c hc => h c (by simp [hc])),
      sumOver_indicator (List.range n) d (List.nodup_range n)
        (List.mem_range.mpr (h d (by simp)))]
    simp

theorem activeSum_map_le (f : Nat → Option Slot) (cnt : Nat → Nat)
    (hf : ∀ c, slotContrib (f c) ≤ cnt c) (l : List Nat) :
    activeCountSum (l.map f) ≤ sumOver l cnt := by
  induction l with
  | nil => simp [activeCountSum]
  | cons c cs ih =>
    rw [List.map_cons, activeCountSum_cons, sumOver_cons]
    have := hf c
    omega

theorem activeSum_mkSlots_le (n : Nat) (cnt : Nat → Nat) (ign : Nat → Bool) :
    activeCountSum (mkSlots n cnt ign) ≤ sumOver (List.range n) cnt := by
  apply activeSum_map_le
  intro c
  unfold slotContrib
  split
  · simp [HuffTree.count]
  · omega

/-- Successful tree building: with at least one active node and a total
active count below INT_MAX, the build loop returns a tree whose leaf values
are pairwise distinct and all drawn from the active slots' leaves. -/
theorem buildLoop_success (P : Nat → Prop) : ∀ (fuel : Nat) (ht : List (Option Slot)),
    1 ≤ numActive ht →
    numActive ht ≤ fuel →
    activeCountSum ht < INT_MAX →
    (∀ i sl, i < ht.length → ht.getD i none = some sl → sl.ignore = false →
      ∀ v ∈ sl.tree.leafValues, P v) →
    (∀ i, i < ht.length → (slotLeafList (ht.getD i none)).Nodup) →
    (∀ i j, i < ht.length → j < ht.length → i ≠ j →
      ∀ v, v ∈ slotLeafList (ht.getD i none) → v ∉ slotLeafList (ht.getD j none)) →
    ∃ t, buildLoop fuel ht = some t ∧ t.leafValues.Nodup ∧ ∀ v ∈ t.leafValues, P v := by
  intro fuel
  induction fuel with
  | zero =>
    intro ht h1 h2 _ _ _ _
    omega
  | succ f ih =>
    intro ht hact hfuel hsum hP hN1 hN2
    have hex : ∃ s ∈ ht, isActiveSlot s = true := by
      unfold numActive at hact
      rcases hflt : ht.filter isActiveSlot with _ | ⟨x, xs⟩
      · rw [hflt] at hact
        simp at hact
      · have hx : x ∈ ht.filter isActiveSlot := by
          rw [hflt]
          simp
        exact ⟨x, (List.mem_filter.mp hx).1, (List.mem_filter.mp hx).2⟩
    obtain ⟨s, hsmem, hsact⟩ := hex
    obtain ⟨i0, hi0, hgd⟩ := mem_getD ht none s hsmem
    rcases s with _ | sl0
    · simp [isActiveSlot] at hsact
    have hsl0ig : sl0.ignore = false := by
      rcases hb : sl0.ignore
      · rfl
      · rw [isActiveSlot, hb] at hsact
        simp at hsact
    have hcnt0 : sl0.tree.count < INT_MAX := by
      have hle := slotContrib_le_activeSum ht i0 hi0
      rw [hgd, slotContrib_active sl0 hsl0ig] at hle
      omega
    obtain ⟨m1, hm1⟩ := fmc_some_of_active ht ⟨i0, sl0, hi0, hgd, hsl0ig, hcnt0⟩
    obtain ⟨hm1lt, sl1, hget1, hig1, hcle1, _⟩ := fmc_some_spec ht m1 hm1
    have hc1le : sl1.tree.count ≤ activeCountSum ht := by
      have h2 := slotContrib_le_activeSum ht m1 hm1lt
      rw [hget1, slotContrib_active sl1 hig1] at h2
      exact h2
    have hmark_eq : markIgnore ht m1 = ht.set m1 (some ⟨sl1.tree, true⟩) := by
      unfold markIgnore
      rw [hget1]
      rfl
    have hmark_len : (markIgnore ht m1).length = ht.length := markIgnore_length ht m1
    have hmark_m1 : (markIgnore ht m1).getD m1 none = some ⟨sl1.tree, true⟩ :=
      markIgnore_getD_self ht m1 sl1 hm1lt hget1
    have hmark_ne : ∀ j, j ≠ m1 → (markIgnore ht m1).getD j none = ht.getD j none :=
      fun j hj => markIgnore_getD_ne ht m1 j (fun h => hj h.symm)
    have hnum_mark : numActive (markIgnore ht m1) + 1 = numActive ht := by
      have h2 := numActive_set ht m1 (some ⟨sl1.tree, true⟩) hm1lt
      rw [← hmark_eq, hget1] at h2
      have ha1 : isActiveSlot (some sl1) = true := by simp [isActiveSlot, hig1]
      have ha2 : isActiveSlot (some (⟨sl1.tree, true⟩ : Slot)) = false := by
        simp [isActiveSlot]
      rw [ha1, ha2] at h2
      simp at h2
      omega
    have hsum_mark : activeCountSum (markIgnore ht m1) + sl1.tree.count =
        activeCountSum ht := by
      have h2 := activeCountSum_set ht m1 (some ⟨sl1.tree, true⟩) hm1lt
      rw [← hmark_eq, hget1, slotContrib_active sl1 hig1,
        slotContrib_inactive ⟨sl1.tree, true⟩ rfl] at h2
      omega
    rcases hm2res : FindMinimumCount (markIgnore ht m1) with _ | m2
    · -- only one active node: return ht[min1]
      refine ⟨sl1.tree, ?_, ?_, ?_⟩
      · rw [buildLoop_succ_last f ht m1 hm1 hm2res, hmark_m1]
        rfl
      · have h2 := hN1 m1 hm1lt
        rw [hget1] at h2
        exact h2
      · exact hP m1 sl1 hm1lt hget1 hig1
    · -- two active nodes: merge and recurse
      obtain ⟨hm2lt, sl2, hget2m, hig2, hcle2, _⟩ := fmc_some_spec _ m2 hm2res
      rw [hmark_len] at hm2lt
      have hm2ne : m2 ≠ m1 := by
        intro he
        rw [he, hmark_m1] at hget2m
        injection hget2m with h2
        rw [← h2] at hig2
        exact absurd hig2 (by simp)
      have hget2 : ht.getD m2 none = some sl2 := by
        rw [← hmark_ne m2 hm2ne]
        exact hget2m
      have hpair : sl1.tree.count + sl2.tree.count ≤ activeCountSum ht := by
        have h2 := pair_le_activeSum ht m1 m2 (fun h => hm2ne h.symm) hm1lt hm2lt
        rw [hget1, hget2, slotContrib_active sl1 hig1, slotContrib_active sl2 hig2] at h2
        exact h2
      have hcompcnt : (HuffTree.comp sl1.tree sl2.tree).count =
          sl1.tree.count + sl2.tree.count := by
        show (sl1.tree.count + sl2.tree.count) % 2 ^ 32 = _
        apply Nat.mod_eq_of_lt
        have hIM : (INT_MAX : Nat) < 2 ^ 32 := by
          unfold INT_MAX
          norm_num
        omega
      obtain ⟨s1, hs1, hs1t⟩ :
          ∃ s1, (markIgnore ht m1).getD m1 none = some s1 ∧ s1.tree = sl1.tree :=
        ⟨⟨sl1.tree, true⟩, hmark_m1, rfl⟩
      have hs1ig : s1.ignore = true := by
        rw [hs1] at hmark_m1
        injection hmark_m1 with h2
        rw [h2]
      have hstep := buildLoop_succ_merge f ht m1 m2 s1 sl2 hm1 hm2res hs1 hget2m
      set ht2 := ((markIgnore ht m1).set m1 (some ⟨.comp s1.tree sl2.tree, false⟩)).set m2
        none with hht2
      have hlen_i : ((markIgnore ht m1).set m1
          (some ⟨.comp s1.tree sl2.tree, false⟩)).length = ht.length := by
        rw [List.length_set, hmark_len]
      have hlen2 : ht2.length = ht.length := by
        rw [hht2, List.length_set, hlen_i]
      have hgd2_m1 : ht2.getD m1 none = some ⟨.comp s1.tree sl2.tree, false⟩ := by
        rw [hht2, getD_set_ne_d _ m2 m1 none none hm2ne,
          getD_set_self_d _ m1 _ none (by rw [hmark_len]; exact hm1lt)]
      have hgd2_m2 : ht2.getD m2 none = none := by
        rw [hht2, getD_set_self_d _ m2 none none (by rw [hlen_i]; exact hm2lt)]
      have hgd2_other : ∀ j, j ≠ m1 → j ≠ m2 → ht2.getD j none = ht.getD j none := by
        intro j hj1 hj2
        rw [hht2, getD_set_ne_d _ m2 j none none (fun h => hj2 h.symm),
          getD_set_ne_d _ m1 j _ none (fun h => hj1 h.symm), hmark_ne j hj1]
      -- numActive of ht2
      have hnum_i : numActive ((markIgnore ht m1).set m1
          (some ⟨.comp s1.tree sl2.tree, false⟩)) = numActive (markIgnore ht m1) + 1 := by
        have h2 := numActive_set (markIgnore ht m1) m1
          (some ⟨.comp s1.tree sl2.tree, false⟩) (by rw [hmark_len]; exact hm1lt)
        rw [hmark_m1] at h2
        have ha1 : isActiveSlot (some (⟨sl1.tree, true⟩ : Slot)) = false := by
          simp [isActiveSlot]
        have ha2 : isActiveSlot (some (⟨.comp s1.tree sl2.tree, false⟩ : Slot)) = true := by
          simp [isActiveSlot]
        rw [ha1, ha2] at h2
        simp at h2
        omega
      have hnum2 : numActive ht2 + 1 = numActive ht := by
        have h2 := numActive_set ((markIgnore ht m1).set m1
          (some ⟨.comp s1.tree sl2.tree, false⟩)) m2 none (by rw [hlen_i]; exact hm2lt)
        have hgdi : ((markIgnore ht m1).set m1
            (some ⟨.comp s1.tree sl2.tree, false⟩)).getD m2 none = some sl2 := by
          rw [getD_set_ne_d _ m1 m2 _ none (fun h => hm2ne h.symm)]
          exact hget2m
        rw [hgdi] at h2
        have ha1 : isActiveSlot (some sl2) = true := by simp [isActiveSlot, hig2]
        have ha2 : isActiveSlot (none : Option Slot) = false := rfl
        rw [ha1, ha2] at h2
        simp at h2
        rw [← hht2] at h2
        omega
      have hmark_act : 1 ≤ numActive (markIgnore ht m1) :=
        one_le_numActive_of_active (markIgnore ht m1) m2 sl2
          (by rw [hmark_len]; exact hm2lt) hget2m hig2
      -- activeCountSum of ht2
      have hsum_i : activeCountSum ((markIgnore ht m1).set m1
          (some ⟨.comp s1.tree sl2.tree, false⟩)) =
          activeCountSum (markIgnore ht m1) + (sl1.tree.count + sl2.tree.count) := by
        have h2 := activeCountSum_set (markIgnore ht m1) m1
          (some ⟨.comp s1.tree sl2.tree, false⟩) (by rw [hmark_len]; exact hm1lt)
        rw [hmark_m1, slotContrib_inactive ⟨sl1.tree, true⟩ rfl,
          slotContrib_active ⟨.comp s1.tree sl2.tree, false⟩ rfl] at h2
        have h3 : (⟨.comp s1.tree sl2.tree, false⟩ : Slot).tree.count =
            sl1.tree.count + sl2.tree.count := by
          show (HuffTree.comp s1.tree sl2.tree).count = _
          rw [hs1t]
          exact hcompcnt
        rw [h3] at h2
        omega
      have hsum2 : activeCountSum ht2 = activeCountSum ht := by
        have h2 := activeCountSum_set ((markIgnore ht m1).set m1
          (some ⟨.comp s1.tree sl2.tree, false⟩)) m2 none (by rw [hlen_i]; exact hm2lt)
        have hgdi : ((markIgnore ht m1).set m1
            (some ⟨.comp s1.tree sl2.tree, false⟩)).getD m2 none = some sl2 := by
          rw [getD_set_ne_d _ m1 m2 _ none (fun h => hm2ne h.symm)]
          exact hget2m
        rw [hgdi, slotContrib_active sl2 hig2] at h2
        have h3 : slotContrib (none : Option Slot) = 0 := rfl
        rw [h3, ← hht2] at h2
        omega
      -- leaves of the composite slot
      have hleaves_m1 : slotLeafList (ht2.getD m1 none) =
          sl1.tree.leafValues ++ sl2.tree.leafValues := by
        rw [hgd2_m1]
        show (HuffTree.comp s1.tree sl2.tree).leafValues = _
        rw [HuffTree.leafValues, hs1t]
      -- apply the induction hypothesis
      obtain ⟨t, hbt, htn, htp⟩ := ih ht2
        (by omega)
        (by omega)
        (by omega)
        (by
          intro i sl hi hgdi higi v hv
          by_cases him1 : i = m1
          · rw [him1, hgd2_m1] at hgdi
            injection hgdi with h2
            rw [← h2] at hv
            have hv2 : v ∈ sl1.tree.leafValues ++ sl2.tree.leafValues := by
              have : (⟨.comp s1.tree sl2.tree, false⟩ : Slot).tree.leafValues =
                  sl1.tree.leafValues ++ sl2.tree.leafValues := by
                show (HuffTree.comp s1.tree sl2.tree).leafValues = _
                rw [HuffTree.leafValues, hs1t]
              rw [this] at hv
              exact hv
            rcases List.mem_append.mp hv2 with h3 | h3
            · exact hP m1 sl1 hm1lt hget1 hig1 v h3
            · exact hP m2 sl2 hm2lt hget2 hig2 v h3
          · by_cases him2 : i = m2
            · rw [him2, hgd2_m2] at hgdi
              exact absurd hgdi (by simp)
            · rw [hgd2_other i him1 him2] at hgdi
              exact hP i sl (by rw [← hlen2]; exact hi) hgdi higi v hv)
        (by
          intro i hi
          by_cases him1 : i = m1
          · rw [him1, hleaves_m1]
            apply List.Nodup.append
            · have h2 := hN1 m1 hm1lt
              rw [hget1] at h2
              exact h2
            · have h2 := hN1 m2 hm2lt
              rw [hget2] at h2
              exact h2
            · have h2 := hN2 m1 m2 hm1lt hm2lt (fun h => hm2ne h.symm)
              rw [hget1, hget2] at h2
              exact h2
          · by_cases him2 : i = m2
            · rw [him2, hgd2_m2]
              simp [slotLeafList]
            · rw [hgd2_other i him1 him2]
              exact hN1 i (by rw [← hlen2]; exact hi))
        (by
          intro i j hi hj hij v hvi
          rw [hlen2] at hi hj
          by_cases him1 : i = m1
          · rw [him1, hleaves_m1] at hvi
            by_cases hjm2 : j = m2
            · rw [hjm2, hgd2_m2]
              simp [slotLeafList]
            · have hjm1 : j ≠ m1 := by rw [him1] at hij; exact fun h => hij h.symm
              rw [hgd2_other j hjm1 hjm2]
              rcases List.mem_append.mp hvi with h3 | h3
              · have h4 := hN2 m1 j hm1lt hj (fun h => hjm1 h.symm) v
                rw [hget1] at h4
                exact h4 h3
              · have h4 := hN2 m2 j hm2lt hj (fun h => hjm2 h.symm) v
                rw [hget2] at h4
                exact h4 h3
          · by_cases him2 : i = m2
            · rw [him2, hgd2_m2] at hvi
              simp [slotLeafList] at hvi
            · rw [hgd2_other i him1 him2] at hvi
              by_cases hjm1 : j = m1
              · rw [hjm1, hleaves_m1]
                intro hvj
                rcases List.mem_append.mp hvj with h3 | h3
                · have h4 := hN2 i m1 hi hm1lt him1 v hvi
                  rw [hget1] at h4
                  exact h4 h3
                · have h4 := hN2 i m2 hi hm2lt him2 v hvi
                  rw [hget2] at h4
                  exact h4 h3
              · by_cases hjm2 : j = m2
                · rw [hjm2, hgd2_m2]
                  simp [slotLeafList]
                · rw [hgd2_other j hjm1 hjm2]
                  exact hN2 i j hi hj hij v hvi)
      refine ⟨t, ?_, htn, htp⟩
      rw [hstep]
      exact hbt

/-- Whenever every symbol is in range and the data is short enough that all
counts stay below INT_MAX, tree generation succeeds and produces a tree with
pairwise-distinct leaves, each of which is either EOF or a data symbol. -/
theorem GenerateTree_success (data : List Nat)
    (hin : ∀ c ∈ data, c < NUM_CHARS)
    (hlen : data.length + 1 < INT_MAX) :
    ∃ t, GenerateTreeFromArray data = some t ∧ t.leafValues.Nodup ∧
      ∀ v ∈ t.leafValues, v < NUM_CHARS ∧ (v = EOF_CHAR ∨ v ∈ data) := by
  have hIM : (INT_MAX : Nat) = 2147483647 := rfl
  have hCM : (COUNT_T_MAX : Nat) = 4294967295 := rfl
  have hE : EOF_CHAR < NUM_CHARS := by
    show (65536 : Nat) < 65537
    norm_num
  have hbound : ∀ c, initialCount c + data.count c ≤ COUNT_T_MAX := by
    intro c
    have h1 : initialCount c ≤ 1 := by
      unfold initialCount
      split
      · exact le_refl 1
      · exact Nat.zero_le 1
    have h2 : data.count c ≤ data.length := List.count_le_length c data
    omega
  have hcs : countSymbols initialLeafSlots data =
      some (mkSlots NUM_CHARS (fun c => initialCount c + data.count c)
        (fun c => (if c = EOF_CHAR then false else true) && (data.count c == 0))) := by
    rw [initialLeafSlots_eq]
    exact countSymbols_success data initialCount _ hin hbound
  rw [GenerateTree_some_of data _ hcs]
  unfold BuildHuffmanTree
  have hL : (mkSlots NUM_CHARS (fun c => initialCount c + data.count c)
      (fun c => (if c = EOF_CHAR then false else true) && (data.count c == 0))).length =
      NUM_CHARS := mkSlots_length _ _ _
  have hEgd := mkSlots_getD NUM_CHARS (fun c => initialCount c + data.count c)
    (fun c => (if c = EOF_CHAR then false else true) && (data.count c == 0)) EOF_CHAR hE
  have hEign : ((if EOF_CHAR = EOF_CHAR then false else true) &&
      (data.count EOF_CHAR == 0)) = false := by simp
  apply buildLoop_success (fun v => v < NUM_CHARS ∧ (v = EOF_CHAR ∨ v ∈ data))
  · exact one_le_numActive_of_active _ EOF_CHAR _ (by rw [hL]; exact hE) hEgd hEign
  · have h2 : numActive (mkSlots NUM_CHARS (fun c => initialCount c + data.count c)
        (fun c => (if c = EOF_CHAR then false else true) && (data.count c == 0))) ≤
        NUM_CHARS := by
      unfold numActive
      calc _ ≤ (mkSlots NUM_CHARS _ _).length := List.length_filter_le _ _
        _ = NUM_CHARS := hL
    rw [hL]
    omega
  · have h2 := activeSum_mkSlots_le NUM_CHARS (fun c => initialCount c + data.count c)
      (fun c => (if c = EOF_CHAR then false else true) && (data.count c == 0))
    rw [sumOver_add] at h2
    have h3 : sumOver (List.range NUM_CHARS) initialCount = 1 := by
      have hcg : sumOver (List.range NUM_CHARS) initialCount =
          sumOver (List.range NUM_CHARS) (fun c => if c = EOF_CHAR then 1 else 0) := by
        apply sumOver_congr
        intro c _
        rfl
      rw [hcg]
      exact sumOver_indicator _ EOF_CHAR (List.nodup_range NUM_CHARS) (List.mem_range.mpr hE)
    rw [h3, sumOver_count data NUM_CHARS hin] at h2
    omega
  · intro i sl hi hgdi higi v hv
    rw [hL] at hi
    rw [mkSlots_getD _ _ _ i hi] at hgdi
    injection hgdi with h2
    rw [← h2] at hv higi
    have hv2 : v = i := by
      have hv3 : v ∈ [i] := hv
      exact List.mem_singleton.mp hv3
    subst hv2
    refine ⟨hi, ?_⟩
    by_cases he : v = EOF_CHAR
    · exact Or.inl he
    · right
      have h3 : ((if v = EOF_CHAR then false else true) && (data.count v == 0)) = false :=
        higi
      rw [if_neg he] at h3
      simp at h3
      exact List.count_pos_iff.mp (by omega)
  · intro i hi
    rw [hL] at hi
    rw [mkSlots_getD _ _ _ i hi]
    simp [slotLeafList, HuffTree.leafValues]
  · intro i j hi hj hij v hvi
    rw [hL] at hi hj
    rw [mkSlots_getD _ _ _ i hi] at hvi
    rw [mkSlots_getD _ _ _ j hj]
    have h2 : v = i := by
      have h3 : v ∈ [i] := hvi
      exact List.mem_singleton.mp h3
    subst h2
    show v ∉ [j]
    simp
    omega

/-- C6: contrary to the specification, tree generation never fails on
in-table symbols: every input whose symbols are at most the reserved EOF
index 65536 — including inputs that contain EOF itself — is counted and
yields a Huffman tree (the code performs no range check; symbols above
65536 index outside the table, which is an out-of-bounds write, not a
clean error). -/
theorem c6_tree_generation_no_range_check (data : List Nat)
    (hin : ∀ c ∈ data, c ≤ EOF_CHAR) (hlen : data.length + 1 < INT_MAX) :
    ∃ t, GenerateTreeFromArray data = some t := by
  have h2 : ∀ c ∈ data, c < NUM_CHARS := by
    intro c hc
    have h3 : c ≤ 65536 := hin c hc
    show c < 65537
    omega
  obtain ⟨t, ht, _⟩ := GenerateTree_success data h2 hlen
  exact ⟨t, ht⟩

/-- Witness for c6_tree_generation_no_range_check: the input consisting of
the reserved EOF index alone is accepted. -/
theorem c6_tree_generation_no_range_check_witness :
    ∃ t, GenerateTreeFromArray [EOF_CHAR] = some t :=
  c6_tree_generation_no_range_check [EOF_CHAR] (by decide) (by decide)

/-! ### Decimal output / input round-trip -/

theorem decDigitsGo_digits (fuel : Nat) : ∀ (n : Nat) (b : Nat),
    b ∈ decDigitsGo fuel n → isDigitByte b = true := by
  induction fuel with
  | zero =>
    intro n b hb
    unfold decDigitsGo at hb
    simp at hb
    have h2 : n % 10 < 10 := Nat.mod_lt n (by norm_num)
    unfold isDigitByte
    simp
    omega
  | succ f ih =>
    intro n b hb
    unfold decDigitsGo at hb
    split at hb
    · simp at hb
      unfold isDigitByte
      simp
      omega
    · rcases List.mem_append.mp hb with h2 | h2
      · exact ih (n / 10) b h2
      · simp at h2
        have h3 : n % 10 < 10 := Nat.mod_lt n (by omega)
        unfold isDigitByte
        simp
        omega

theorem decDigitsGo_ne_nil (fuel n : Nat) : decDigitsGo fuel n ≠ [] := by
  cases fuel with
  | zero => simp [decDigitsGo]
  | succ f =>
    unfold decDigitsGo
    split
    · simp
    · simp

theorem digit_not_ws (b : Nat) (h : isDigitByte b = true) : isWsByte b = false := by
  unfold isDigitByte at h
  unfold isWsByte
  simp at h
  simp
  omega

theorem skipWs_cons_not (b : Nat) (rest : List Nat) (h : isWsByte b = false) :
    skipWs (b :: rest) = b :: rest := by
  simp [skipWs, h]

theorem parseDigitsGo_digits_append (ds : List Nat) (hd : ∀ b ∈ ds, isDigitByte b = true) :
    ∀ (l : List Nat), (∀ c rest2, l = c :: rest2 → isDigitByte c = false) →
    ∀ (acc : Nat), parseDigitsGo acc (ds ++ l) =
      (ds.foldl (fun a b => 10 * a + (b - 48)) acc, l) := by
  induction ds with
  | nil =>
    intro l hl acc
    rcases l with _ | ⟨c, rest2⟩
    · rfl
    · show parseDigitsGo acc (c :: rest2) = (acc, c :: rest2)
      unfold parseDigitsGo
      rw [hl c rest2 rfl]
      simp
  | cons d ds2 ih =>
    intro l hl acc
    have hdd : isDigitByte d = true := hd d (List.mem_cons_self d ds2)
    show parseDigitsGo acc (d :: (ds2 ++ l)) = _
    unfold parseDigitsGo
    rw [hdd]
    simp only [List.foldl_cons]
    exact ih (fun b hb => hd b (List.mem_cons_of_mem d hb)) l hl _

theorem decDigitsGo_foldl (fuel : Nat) : ∀ (n : Nat), n ≤ fuel → ∀ (acc : Nat),
    (decDigitsGo fuel n).foldl (fun a b => 10 * a + (b - 48)) acc =
      acc * 10 ^ (decDigitsGo fuel n).length + n := by
  induction fuel with
  | zero =>
    intro n hn acc
    have h0 : n = 0 := Nat.le_zero.mp hn
    subst h0
    simp [decDigitsGo]
    ring
  | succ f ih =>
    intro n hn acc
    unfold decDigitsGo
    split
    · simp
      omega
    · rw [List.foldl_append]
      have hdiv : n / 10 ≤ f := by
        have h2 : n / 10 < n := Nat.div_lt_self (by omega) (by norm_num)
        omega
      rw [ih (n / 10) hdiv acc]
      simp [List.length_append]
      rw [pow_succ]
      have hmod := Nat.div_add_mod n 10
      ring_nf
      omega

theorem parseUInt_decDigits (n : Nat) (l : List Nat)
    (hl : ∀ c rest2, l = c :: rest2 → isDigitByte c = false) :
    parseUInt (decDigits n ++ l) = some (n, l) := by
  unfold parseUInt decDigits
  rcases hds : decDigitsGo n n with _ | ⟨d, ds2⟩
  · exact absurd hds (decDigitsGo_ne_nil n n)
  · have hdd : isDigitByte d = true := by
      apply decDigitsGo_digits n n
      rw [hds]
      exact List.mem_cons_self d ds2
    rw [List.cons_append, skipWs_cons_not d _ (digit_not_ws d hdd)]
    show (if isDigitByte d = true then some (parseDigitsGo 0 (d :: (ds2 ++ l)))
      else none) = some (n, l)
    rw [if_pos hdd]
    simp only [← List.cons_append]
    rw [parseDigitsGo_digits_append (d :: ds2) (by rw [← hds]; exact decDigitsGo_digits n n)
      l hl 0]
    rw [← hds, decDigitsGo_foldl n n (le_refl n) 0]
    simp

theorem fgetsGo_no_nl : ∀ (header next : List Nat), (∀ b ∈ header, b ≠ 10) →
    fgetsGo header.length (header ++ next) = (header, next) := by
  intro header
  induction header with
  | nil =>
    intro next _
    rcases next with _ | ⟨b, r⟩
    · rfl
    · rfl
  | cons b hs ih =>
    intro next hnl
    show (if b = 10 then ([b], hs ++ next)
      else (b :: (fgetsGo hs.length (hs ++ next)).1, (fgetsGo hs.length (hs ++ next)).2)) =
      (b :: hs, next)
    rw [if_neg (hnl b (List.mem_cons_self b hs))]
    rw [ih next (fun c hc => hnl c (List.mem_cons_of_mem b hc))]

/-! ### Parsing the written container header -/

theorem openSqdBytes_magic (x : List Nat) : openSqdBytes (sqdMagic ++ x) = some x := by
  show openSqdBytes (115 :: 113 :: 100 :: x) = some x
  unfold openSqdBytes
  simp

theorem compressFile_shape (data mask : List Nat) (w h : Nat) (header : List Nat)
    (hin : ∀ c ∈ maskedData data mask, c < NUM_CHARS)
    (hlen : (maskedData data mask).length + 1 < INT_MAX) :
    ∃ tbl nb pl, compressFile data mask w h header =
      some (mkSqdFile header w h tbl nb pl) := by
  obtain ⟨t, ht, _, _⟩ := GenerateTree_success (maskedData data mask) hin hlen
  unfold compressFile CHuffmanEncodeArray
  rw [ht]
  exact ⟨_, _, _, rfl⟩


theorem parseUInt_cons_ws (b : Nat) (x : List Nat) (hb : isWsByte b = true) :
    parseUInt (b :: x) = parseUInt x := by
  unfold parseUInt
  rw [show skipWs (b :: x) = skipWs x by simp [skipWs, hb]]

theorem skipWs_header_digits (header tail : List Nat)
    (hws : ∀ b rest2, header = b :: rest2 → isWsByte b = false)
    (hdig : ∀ c rest2, tail = c :: rest2 → isDigitByte c = true) :
    skipWs (header ++ tail) = header ++ tail := by
  rcases hh : header with _ | ⟨b, hs⟩
  · rw [List.nil_append]
    rcases ht : tail with _ | ⟨c, cs⟩
    · rfl
    · exact skipWs_cons_not c cs (digit_not_ws c (hdig c cs ht))
  · rw [List.cons_append]
    exact skipWs_cons_not b _ (hws b hs hh)

theorem readSqdHeader_mkSqd (header : List Nat) (w h : Nat) (rest : List Nat)
    (hnl : ∀ b ∈ header, b ≠ 10)
    (hws : ∀ b rest2, header = b :: rest2 → isWsByte b = false) :
    readSqdHeader (decDigits header.length ++ [SP] ++ decDigits w ++ [SP] ++ decDigits h
      ++ [SP] ++ header ++ decDigits NUM_CHARS ++ [SP] ++ rest) =
    some ⟨header.length, w, h, header, some NUM_CHARS, SP :: rest⟩ := by
  have hSPd : ∀ (l2 : List Nat) (c : Nat) (rest2 : List Nat),
      SP :: l2 = c :: rest2 → isDigitByte c = false := by
    intro l2 c rest2 he
    injection he with h1 _
    rw [← h1]
    rfl
  have hassoc : decDigits header.length ++ [SP] ++ decDigits w ++ [SP] ++ decDigits h
      ++ [SP] ++ header ++ decDigits NUM_CHARS ++ [SP] ++ rest =
      decDigits header.length ++ (SP :: (decDigits w ++ (SP :: (decDigits h ++
        (SP :: (header ++ (decDigits NUM_CHARS ++ (SP :: rest)))))))) := by
    simp [List.append_assoc]
  rw [hassoc]
  unfold readSqdHeader
  rw [parseUInt_decDigits header.length _ (hSPd _)]
  dsimp only
  rw [parseUInt_cons_ws SP _ rfl, parseUInt_decDigits w _ (hSPd _)]
  dsimp only
  rw [parseUInt_cons_ws SP _ rfl, parseUInt_decDigits h _ (hSPd _)]
  dsimp only
  rw [show skipWs (SP :: (header ++ (decDigits NUM_CHARS ++ (SP :: rest)))) =
      skipWs (header ++ (decDigits NUM_CHARS ++ (SP :: rest))) by simp [skipWs, isWsByte, SP]]
  rw [skipWs_header_digits header _ hws (by
    intro c rest2 he
    have hne := decDigitsGo_ne_nil NUM_CHARS NUM_CHARS
    rcases hds : decDigits NUM_CHARS with _ | ⟨d, ds2⟩
    · exact absurd hds hne
    · unfold decDigits at he hds
      rw [hds, List.cons_append] at he
      injection he with h1 _
      rw [← h1]
      apply decDigitsGo_digits NUM_CHARS NUM_CHARS
      rw [hds]
      exact List.mem_cons_self d ds2)]
  rw [fgetsGo_no_nl header _ hnl]
  dsimp only
  rw [parseUInt_decDigits NUM_CHARS _ (hSPd _)]

theorem mkSqdFile_assoc (header : List Nat) (w h : Nat) (tbl : List Nat) (nb : Nat)
    (pl : List Nat) :
    mkSqdFile header w h tbl nb pl = sqdMagic ++
      (decDigits header.length ++ [SP] ++ decDigits w ++ [SP] ++ decDigits h ++ [SP] ++
        header ++ decDigits NUM_CHARS ++ [SP] ++
        (concatAll (tbl.map fun L => decDigits L ++ [SP]) ++ (decDigits nb ++ ([SP] ++ pl)))) := by
  simp [mkSqdFile, List.append_assoc]

set_option maxRecDepth 8000

theorem parseDigitsGo_step_digit (acc b : Nat) (rest : List Nat)
    (h : isDigitByte b = true) :
    parseDigitsGo acc (b :: rest) = parseDigitsGo (10 * acc + (b - 48)) rest := by
  show (if isDigitByte b = true then parseDigitsGo (10 * acc + (b - 48)) rest
    else (acc, b :: rest)) = _
  rw [if_pos h]

theorem parseDigitsGo_step_non (acc b : Nat) (rest : List Nat)
    (h : isDigitByte b = false) :
    parseDigitsGo acc (b :: rest) = (acc, b :: rest) := by
  show (if isDigitByte b = true then parseDigitsGo (10 * acc + (b - 48)) rest
    else (acc, b :: rest)) = _
  rw [h]
  simp

theorem parseUInt_cons_digit (b : Nat) (rest : List Nat) (h : isDigitByte b = true) :
    parseUInt (b :: rest) = some (parseDigitsGo 0 (b :: rest)) := by
  unfold parseUInt
  rw [skipWs_cons_not b rest (digit_not_ws b h)]
  show (if isDigitByte b = true then some (parseDigitsGo 0 (b :: rest)) else none) = _
  rw [if_pos h]

theorem parseUInt_cons_other (b : Nat) (rest : List Nat) (hd : isDigitByte b = false)
    (hw : isWsByte b = false) : parseUInt (b :: rest) = none := by
  unfold parseUInt
  rw [skipWs_cons_not b rest hw]
  show (if isDigitByte b = true then some (parseDigitsGo 0 (b :: rest)) else none) = _
  rw [hd]
  simp

theorem fgetsGo_cons_nl (n : Nat) (rest : List Nat) :
    fgetsGo (n + 1) (10 :: rest) = ([10], rest) := rfl

theorem fgetsGo_cons_other (n b : Nat) (rest : List Nat) (h : b ≠ 10) :
    fgetsGo (n + 1) (b :: rest) =
      (b :: (fgetsGo n rest).1, (fgetsGo n rest).2) := by
  show (if b = 10 then ([b], rest)
    else (b :: (fgetsGo n rest).1, (fgetsGo n rest).2)) = _
  rw [if_neg h]

theorem readSqdHeader_nl_header (Z : List Nat) :
    readSqdHeader (51 :: 32 :: 49 :: 32 :: 49 :: 32 :: 97 :: 10 :: 98 :: Z) =
      some ⟨3, 1, 1, [97, 10], none, 98 :: Z⟩ := by
  have h1 : parseUInt (51 :: 32 :: 49 :: 32 :: 49 :: 32 :: 97 :: 10 :: 98 :: Z) =
      some (3, 32 :: 49 :: 32 :: 49 :: 32 :: 97 :: 10 :: 98 :: Z) := by
    rw [parseUInt_cons_digit 51 _ rfl, parseDigitsGo_step_digit 0 51 _ rfl,
      parseDigitsGo_step_non _ 32 _ rfl]
  have h2 : parseUInt (32 :: 49 :: 32 :: 49 :: 32 :: 97 :: 10 :: 98 :: Z) =
      some (1, 32 :: 49 :: 32 :: 97 :: 10 :: 98 :: Z) := by
    rw [parseUInt_cons_ws 32 _ rfl, parseUInt_cons_digit 49 _ rfl,
      parseDigitsGo_step_digit 0 49 _ rfl, parseDigitsGo_step_non _ 32 _ rfl]
  have h3 : parseUInt (32 :: 49 :: 32 :: 97 :: 10 :: 98 :: Z) =
      some (1, 32 :: 97 :: 10 :: 98 :: Z) := by
    rw [parseUInt_cons_ws 32 _ rfl, parseUInt_cons_digit 49 _ rfl,
      parseDigitsGo_step_digit 0 49 _ rfl, parseDigitsGo_step_non _ 32 _ rfl]
  have h4 : skipWs (32 :: 97 :: 10 :: 98 :: Z) = 97 :: 10 :: 98 :: Z := by
    show skipWs (97 :: 10 :: 98 :: Z) = _
    exact skipWs_cons_not 97 _ rfl
  have h5 : fgetsGo 3 (97 :: 10 :: 98 :: Z) = ([97, 10], 98 :: Z) := by
    rw [show (3 : Nat) = 2 + 1 from rfl, fgetsGo_cons_other 2 97 _ (by norm_num)]
    rw [show (2 : Nat) = 1 + 1 from rfl, fgetsGo_cons_nl 1 (98 :: Z)]
  have h6 : parseUInt (98 :: Z) = none := parseUInt_cons_other 98 Z rfl rfl
  unfold readSqdHeader
  rw [h1]
  dsimp only
  rw [h2]
  dsimp only
  rw [h3]
  dsimp only
  rw [h4, h5]
  dsimp only
  rw [h6]

theorem mkSqdFile_nl_header (tbl : List Nat) (nb : Nat) (pl : List Nat) :
    mkSqdFile [97, 10, 98] 1 1 tbl nb pl = sqdMagic ++
      (51 :: 32 :: 49 :: 32 :: 49 :: 32 :: 97 :: 10 :: 98 ::
        (decDigits NUM_CHARS ++ [SP] ++ concatAll (tbl.map fun L => decDigits L ++ [SP])
          ++ decDigits nb ++ [SP] ++ pl)) := by
  have hl3 : decDigits (([97, 10, 98] : List Nat).length) = [51] := rfl
  have hl1 : decDigits 1 = [49] := rfl
  unfold mkSqdFile
  rw [hl3, hl1]
  simp [SP, List.append_assoc]

/-- C1: the round trip fails outright on a header containing a newline: the
mis-positioned read after fgets makes the alphabet-size scan fail and
decompress returns an error even though the compressed masked data was the
non-empty sequence [5]. -/
theorem c1_roundtrip_failure :
    ∃ file, compressFile [5] [1] 1 1 [97, 10, 98] = some file ∧
      cSquish_decompress file = none ∧ maskedData [5] [1] = [5] := by
  obtain ⟨tbl, nb, pl, hc⟩ := compressFile_shape [5] [1] 1 1 [97, 10, 98]
    (by decide) (by decide)
  refine ⟨_, hc, ?_, by decide⟩
  rw [mkSqdFile_nl_header]
  unfold cSquish_decompress
  rw [openSqdBytes_magic]
  dsimp only
  rw [readSqdHeader_nl_header]

/-! ### The canonical list pipeline -/

theorem list_eq_map_range {α : Type _} (l : List α) (d : α) (n : Nat) (f : Nat → α)
    (hlen : l.length = n) (hget : ∀ i, i < n → l.getD i d = f i) :
    l = (List.range n).map f := by
  apply List.ext_getElem
  · simp [hlen]
  · intro i h1 h2
    have hi : i < n := by simpa using h2
    have h3 := hget i hi
    rw [List.getD_eq_getElem?_getD, List.getElem?_eq_getElem h1] at h3
    simp at h3
    simp [h3, List.getElem_map, List.getElem_range]

theorem getD_map_lt {α β : Type _} (l : List α) (f : α → β) (i : Nat) (d : α) (d2 : β)
    (hi : i < l.length) : (l.map f).getD i d2 = f (l.getD i d) := by
  rw [List.getD_eq_getElem?_getD, List.getD_eq_getElem?_getD, List.getElem?_map,
    List.getElem?_eq_getElem hi]
  rfl

theorem leafDepths_map_fst (t : HuffTree) : ∀ (d : Nat),
    (leafDepths t d).map Prod.fst = t.leafValues := by
  induction t with
  | leaf v c =>
    intro d
    rfl
  | comp l r ihl ihr =>
    intro d
    show ((leafDepths l (d + 1) ++ leafDepths r (d + 1)).map Prod.fst) = _
    rw [List.map_append, ihl, ihr]
    rfl

theorem applyDepths_length (ds : List (Nat × Nat)) : ∀ (cl : List CanonEntry),
    (applyDepths cl ds).length = cl.length := by
  induction ds with
  | nil =>
    intro cl
    rfl
  | cons vd ds2 ih =>
    intro cl
    show (applyDepths (cl.set vd.1 ⟨vd.1, vd.2, none⟩) ds2).length = _
    rw [ih, List.length_set]

theorem initCanonList_getD (i : Nat) (hi : i < NUM_CHARS) :
    initCanonList.getD i ⟨0, 0, none⟩ = ⟨i, 0, none⟩ := by
  rw [List.getD_eq_getElem?_getD]
  simp [initCanonList, List.getElem?_map, List.getElem?_range hi]

theorem applyDepths_getD (ds : List (Nat × Nat)) : ∀ (cl : List CanonEntry) (i : Nat),
    (ds.map Prod.fst).Nodup → (∀ vd ∈ ds, vd.1 < cl.length) →
    (applyDepths cl ds).getD i ⟨0, 0, none⟩ =
      match ds.find? (fun vd => vd.1 == i) with
      | some vd => ⟨i, vd.2, none⟩
      | none => cl.getD i ⟨0, 0, none⟩ := by
  induction ds with
  | nil =>
    intro cl i _ _
    rfl
  | cons vd ds2 ih =>
    intro cl i hnd hbound
    have hnd2 : (ds2.map Prod.fst).Nodup := by
      rw [List.map_cons] at hnd
      exact hnd.of_cons
    have hbound2 : ∀ vd2 ∈ ds2, vd2.1 < (cl.set vd.1 ⟨vd.1, vd.2, none⟩).length := by
      intro vd2 h2
      rw [List.length_set]
      exact hbound vd2 (List.mem_cons_of_mem vd h2)
    have hstep : applyDepths cl (vd :: ds2) =
        applyDepths (cl.set vd.1 ⟨vd.1, vd.2, none⟩) ds2 := rfl
    rw [hstep, ih _ i hnd2 hbound2]
    by_cases hv : vd.1 = i
    · have hfind : (vd :: ds2).find? (fun x => x.1 == i) = some vd := by
        rw [List.find?_cons_of_pos]
        simp [hv]
      rw [hfind]
      have hnotin : ∀ x ∈ ds2, ¬ (x.1 == i) = true := by
        intro x hx hxi
        simp at hxi
        rw [List.map_cons] at hnd
        have h3 : vd.1 ∉ ds2.map Prod.fst := (List.nodup_cons.mp hnd).1
        exact h3 (by rw [hv, ← hxi]; exact List.mem_map_of_mem Prod.fst hx)
      rw [List.find?_eq_none.mpr hnotin]
      dsimp only
      subst hv
      rw [getD_set_self_d cl vd.1 _ _ (hbound vd (List.mem_cons_self vd ds2))]
    · have hfind : (vd :: ds2).find? (fun x => x.1 == i) = ds2.find? (fun x => x.1 == i) := by
        rw [List.find?_cons_of_neg]
        simp [hv]
      rw [hfind]
      rcases h4 : ds2.find? (fun x => x.1 == i) with _ | vd2
      · rw [h4]
        dsimp only
        rw [getD_set_ne_d cl vd.1 i _ _ hv]
      · rw [h4]

theorem withLens_eq (t : HuffTree) (hnd : t.leafValues.Nodup)
    (hin : ∀ v ∈ t.leafValues, v < NUM_CHARS) :
    applyDepths initCanonList (leafDepths t 0) = canonInit (depthLookup (leafDepths t 0)) := by
  have hndf : ((leafDepths t 0).map Prod.fst).Nodup := by
    rw [leafDepths_map_fst t 0]
    exact hnd
  have hbf : ∀ vd ∈ leafDepths t 0, vd.1 < initCanonList.length := by
    intro vd hvd
    have h2 : vd.1 ∈ (leafDepths t 0).map Prod.fst := List.mem_map_of_mem Prod.fst hvd
    rw [leafDepths_map_fst t 0] at h2
    have h3 : initCanonList.length = NUM_CHARS := by
      unfold initCanonList
      rw [List.length_map, List.length_range]
    rw [h3]
    exact hin vd.1 h2
  have hmain := list_eq_map_range (applyDepths initCanonList (leafDepths t 0)) ⟨0, 0, none⟩
    NUM_CHARS (fun i => ⟨i, depthLookup (leafDepths t 0) i, none⟩)
    (by
      rw [applyDepths_length]
      unfold initCanonList
      rw [List.length_map, List.length_range])
    (by
      intro i hi
      rw [applyDepths_getD (leafDepths t 0) initCanonList i hndf hbf]
      unfold depthLookup
      dsimp only
      rcases h4 : (leafDepths t 0).find? (fun vd => vd.1 == i) with _ | vd
      · rw [h4, initCanonList_getD i hi]
      · rw [h4])
  exact hmain

theorem assignGo_map_pair (M : Nat) : ∀ (l : List CanonEntry) (cv ln : Nat),
    (assignGo M cv ln l).map (fun e => (e.value, e.codeLen)) =
      l.map fun e => (e.value, e.codeLen) := by
  intro l
  induction l with
  | nil =>
    intro cv ln
    rfl
  | cons e rest ih =>
    intro cv ln
    unfold assignGo
    split
    · rfl
    · rw [List.map_cons, List.map_cons, ih]

theorem assign_map_pair (cl : List CanonEntry) :
    (AssignCanonicalCodes cl).map (fun e => (e.value, e.codeLen)) =
      cl.map fun e => (e.value, e.codeLen) := by
  unfold AssignCanonicalCodes
  rw [List.map_reverse, assignGo_map_pair, ← List.map_reverse, List.reverse_reverse]

theorem assign_length (cl : List CanonEntry) :
    (AssignCanonicalCodes cl).length = cl.length := by
  have h2 := assign_map_pair cl
  have h3 := congrArg List.length h2
  simpa using h3

theorem assignGo_zero_mem (M : Nat) : ∀ (l : List CanonEntry) (cv ln : Nat) (e : CanonEntry),
    e ∈ assignGo M cv ln l → e.codeLen = 0 → e ∈ l := by
  intro l
  induction l with
  | nil =>
    intro cv ln e he _
    exact absurd he (by simp [assignGo])
  | cons e2 rest ih =>
    intro cv ln e he hz
    unfold assignGo at he
    split at he
    · exact he
    · rcases List.mem_cons.mp he with h3 | h3
      · rw [h3] at hz
        simp at hz
        omega
      · exact List.mem_cons_of_mem e2 (ih _ _ e h3 hz)

theorem assign_zero_mem (cl : List CanonEntry) (e : CanonEntry)
    (he : e ∈ AssignCanonicalCodes cl) (hz : e.codeLen = 0) : e ∈ cl := by
  unfold AssignCanonicalCodes at he
  rw [List.mem_reverse] at he
  have h2 := assignGo_zero_mem _ _ _ _ e he hz
  rw [List.mem_reverse] at h2
  exact h2

theorem canonInit_map_pair (W : Nat → Nat) :
    (canonInit W).map (fun e => (e.value, e.codeLen)) =
      (List.range NUM_CHARS).map fun i => (i, W i) := by
  unfold canonInit
  rw [List.map_map]
  rfl

theorem canonInit_length (W : Nat → Nat) : (canonInit W).length = NUM_CHARS := by
  unfold canonInit
  rw [List.length_map, List.length_range]

theorem BuildCanonicalCode_map_pair (t : HuffTree) (hnd : t.leafValues.Nodup)
    (hin : ∀ v ∈ t.leafValues, v < NUM_CHARS) :
    ((BuildCanonicalCode t).map fun e => (e.value, e.codeLen)).Perm
      ((List.range NUM_CHARS).map fun i => (i, depthLookup (leafDepths t 0) i)) := by
  unfold BuildCanonicalCode
  rw [withLens_eq t hnd hin]
  have f3 : (List.insertionSort canonValLE (AssignCanonicalCodes
      (List.insertionSort canonLenLE (canonInit (depthLookup (leafDepths t 0)))))).Perm
      (AssignCanonicalCodes (List.insertionSort canonLenLE
        (canonInit (depthLookup (leafDepths t 0))))) := List.perm_insertionSort _ _
  refine (f3.map _).trans ?_
  rw [assign_map_pair, ← canonInit_map_pair]
  exact (List.perm_insertionSort _ _).map _

theorem BuildCanonicalCode_values (t : HuffTree) (hnd : t.leafValues.Nodup)
    (hin : ∀ v ∈ t.leafValues, v < NUM_CHARS) :
    (BuildCanonicalCode t).map (fun e => e.value) = List.range NUM_CHARS := by
  have f4 := BuildCanonicalCode_map_pair t hnd hin
  have f5 : ((BuildCanonicalCode t).map fun e => e.value).Perm (List.range NUM_CHARS) := by
    have h2 := f4.map Prod.fst
    rw [List.map_map, List.map_map] at h2
    have h3 : (Prod.fst ∘ fun i => (i, depthLookup (leafDepths t 0) i)) = id := rfl
    rw [h3, List.map_id] at h2
    exact h2
  have hs : ((BuildCanonicalCode t).map fun e => e.value).Sorted (· ≤ ·) := by
    have h2 : (BuildCanonicalCode t).Sorted canonValLE := by
      unfold BuildCanonicalCode
      exact List.sorted_insertionSort canonValLE _
    exact List.pairwise_map.mpr h2
  have hrs : (List.range NUM_CHARS).Sorted (· ≤ ·) :=
    List.Pairwise.imp (fun h => Nat.le_of_lt h) (List.pairwise_lt_range NUM_CHARS)
  exact List.eq_of_perm_of_sorted f5 hs hrs

theorem BuildCanonicalCode_length (t : HuffTree) (hnd : t.leafValues.Nodup)
    (hin : ∀ v ∈ t.leafValues, v < NUM_CHARS) :
    (BuildCanonicalCode t).length = NUM_CHARS := by
  have h2 := congrArg List.length (BuildCanonicalCode_values t hnd hin)
  rw [List.length_map, List.length_range] at h2
  exact h2

theorem BuildCanonicalCode_getD_value (t : HuffTree) (hnd : t.leafValues.Nodup)
    (hin : ∀ v ∈ t.leafValues, v < NUM_CHARS) (i : Nat) (hi : i < NUM_CHARS) :
    ((BuildCanonicalCode t).getD i ⟨0, 0, none⟩).value = i := by
  have hlen := BuildCanonicalCode_length t hnd hin
  have h2 := BuildCanonicalCode_values t hnd hin
  have h3 := congrArg (fun l => l.getD i 0) h2
  dsimp only at h3
  rw [getD_map_lt _ _ i ⟨0, 0, none⟩ 0 (by rw [hlen]; exact hi)] at h3
  rw [h3, List.getD_eq_getElem?_getD, List.getElem?_range hi]
  rfl

theorem BuildCanonicalCode_getD_len (t : HuffTree) (hnd : t.leafValues.Nodup)
    (hin : ∀ v ∈ t.leafValues, v < NUM_CHARS) (i : Nat) (hi : i < NUM_CHARS) :
    ((BuildCanonicalCode t).getD i ⟨0, 0, none⟩).codeLen =
      depthLookup (leafDepths t 0) i := by
  have hlen := BuildCanonicalCode_length t hnd hin
  have hval := BuildCanonicalCode_getD_value t hnd hin i hi
  have hmem : (BuildCanonicalCode t).getD i ⟨0, 0, none⟩ ∈ BuildCanonicalCode t :=
    getD_mem _ _ i (by rw [hlen]; exact hi)
  have hp : (((BuildCanonicalCode t).getD i ⟨0, 0, none⟩).value,
      ((BuildCanonicalCode t).getD i ⟨0, 0, none⟩).codeLen) ∈
      (List.range NUM_CHARS).map fun j => (j, depthLookup (leafDepths t 0) j) := by
    apply (BuildCanonicalCode_map_pair t hnd hin).mem_iff.mp
    exact List.mem_map_of_mem _ hmem
  simp at hp
  obtain ⟨j, hj, hj1, hj2⟩ := hp
  rw [List.getD_eq_getElem?_getD] at hval ⊢
  rw [hval] at hj1
  rw [← hj2, ← hj1]

theorem getD_default_eq {α : Type _} (l : List α) (i : Nat) (d1 d2 : α)
    (hi : i < l.length) : l.getD i d1 = l.getD i d2 := by
  rw [List.getD_eq_getElem?_getD, List.getD_eq_getElem?_getD, List.getElem?_eq_getElem hi]
  rfl

theorem canonInit_code_none (W : Nat → Nat) (e : CanonEntry) (he : e ∈ canonInit W) :
    e.code = none := by
  unfold canonInit at he
  obtain ⟨i, _, hi2⟩ := List.mem_map.mp he
  rw [← hi2]

theorem canonical_zero_entry (t : HuffTree) (hnd : t.leafValues.Nodup)
    (hin : ∀ v ∈ t.leafValues, v < NUM_CHARS) (c : Nat) (hc : c < NUM_CHARS)
    (hcl : c ∉ t.leafValues) :
    clLookup (BuildCanonicalCode t) c = ⟨c, 0, none⟩ := by
  have hW : depthLookup (leafDepths t 0) c = 0 := by
    unfold depthLookup
    rw [List.find?_eq_none.mpr ?_]
    intro vd hvd
    simp only [beq_iff_eq]
    intro hbeq
    apply hcl
    rw [← hbeq, ← leafDepths_map_fst t 0]
    exact List.mem_map_of_mem Prod.fst hvd
  have hlen := BuildCanonicalCode_length t hnd hin
  have hval := BuildCanonicalCode_getD_value t hnd hin c hc
  have hcl2 := BuildCanonicalCode_getD_len t hnd hin c hc
  rw [hW] at hcl2
  have hmem : (BuildCanonicalCode t).getD c ⟨0, 0, none⟩ ∈ BuildCanonicalCode t :=
    getD_mem _ _ c (by rw [hlen]; exact hc)
  have hbcc : BuildCanonicalCode t = List.insertionSort canonValLE (AssignCanonicalCodes
      (List.insertionSort canonLenLE (applyDepths initCanonList (leafDepths t 0)))) := rfl
  have hmem2 : (BuildCanonicalCode t).getD c ⟨0, 0, none⟩ ∈ AssignCanonicalCodes
      (List.insertionSort canonLenLE (applyDepths initCanonList (leafDepths t 0))) := by
    apply (List.perm_insertionSort canonValLE _).mem_iff.mp
    rw [← hbcc]
    exact hmem
  have hmem3 := assign_zero_mem _ _ hmem2 hcl2
  have hmem4 : (BuildCanonicalCode t).getD c ⟨0, 0, none⟩ ∈
      applyDepths initCanonList (leafDepths t 0) :=
    (List.perm_insertionSort canonLenLE _).mem_iff.mp hmem3
  rw [withLens_eq t hnd hin] at hmem4
  have hcode := canonInit_code_none _ _ hmem4
  unfold clLookup
  rw [getD_default_eq (BuildCanonicalCode t) c ⟨c, 0, none⟩ ⟨0, 0, none⟩
    (by rw [hlen]; exact hc)]
  rcases hE : (BuildCanonicalCode t).getD c ⟨0, 0, none⟩ with ⟨v2, l2, c2⟩
  rw [hE] at hval hcl2 hcode
  simp at hval hcl2 hcode
  rw [hval, hcl2, hcode]

/-- C8: contrary to the specification, a symbol that never occurs (and is
not EOF) keeps its ignore flag, is never given a leaf in the tree, and ends
with code length 0 and no code word in the canonical list — it consumes no
code space at all. -/
theorem c8_zero_count_excluded (data : List Nat) (c : Nat)
    (hin : ∀ v ∈ data, v < NUM_CHARS) (hlen : data.length + 1 < INT_MAX)
    (hc : c < NUM_CHARS) (hcd : c ∉ data) (hce : c ≠ EOF_CHAR) :
    ∃ t, GenerateTreeFromArray data = some t ∧ c ∉ t.leafValues ∧
      clLookup (BuildCanonicalCode t) c = ⟨c, 0, none⟩ := by
  obtain ⟨t, ht, hnd, hleaf⟩ := GenerateTree_success data hin hlen
  have hcl : c ∉ t.leafValues := by
    intro hmem
    rcases (hleaf c hmem).2 with h2 | h2
    · exact hce h2
    · exact hcd h2
  exact ⟨t, ht, hcl,
    canonical_zero_entry t hnd (fun v hv => (hleaf v hv).1) c hc hcl⟩

/-- Witness for c8_zero_count_excluded: for the input [0], symbol 1 has
zero count and receives code length 0 and no code word. -/
theorem c8_zero_count_excluded_witness :
    ∃ t, GenerateTreeFromArray [0] = some t ∧ 1 ∉ t.leafValues ∧
      clLookup (BuildCanonicalCode t) 1 = ⟨1, 0, none⟩ :=
  c8_zero_count_excluded [0] 1 (by decide) (by decide) (by decide) (by decide) (by decide)

/-- C8 counterexample: on input [2], the zero-count symbol 0 gets no leaf
position and code length 0 — it is special-cased out by the initial ignore
flag, not merged last. -/
theorem c8_counterexample :
    ∃ t, GenerateTreeFromArray [2] = some t ∧ 0 ∉ t.leafValues ∧
      clLookup (BuildCanonicalCode t) 0 = ⟨0, 0, none⟩ := by
  obtain ⟨t, ht, hnd, hleaf⟩ := GenerateTree_success [2] (by decide) (by decide)
  have hcl : (0 : Nat) ∉ t.leafValues := by
    intro hmem
    rcases (hleaf 0 hmem).2 with h2 | h2
    · exact absurd h2 (by decide)
    · exact absurd h2 (by decide)
  exact ⟨t, ht, hcl,
    canonical_zero_entry t hnd (fun v hv => (hleaf v hv).1) 0 (by decide) hcl⟩

/-- C3: replaying canonical assignment from the stored length table alone —
rebuilding (value, length, NULL) entries in symbol order, sorting with the
same comparator and running AssignCanonicalCodes, exactly as the decoder
does — produces the identical assigned list, hence bit-for-bit identical
code words, to the encoder's assignment from the Huffman tree. -/
theorem c3_assignment_replay (data : List Nat)
    (hin : ∀ v ∈ data, v < NUM_CHARS) (hlen : data.length + 1 < INT_MAX) :
    ∃ t, GenerateTreeFromArray data = some t ∧
      AssignCanonicalCodes (List.insertionSort canonLenLE ((List.range NUM_CHARS).map
        fun i => (⟨i, ((BuildCanonicalCode t).map fun e => e.codeLen).getD i 0, none⟩ :
          CanonEntry))) =
      AssignCanonicalCodes (List.insertionSort canonLenLE
        (applyDepths initCanonList (leafDepths t 0))) := by
  obtain ⟨t, ht, hnd, hleaf⟩ := GenerateTree_success data hin hlen
  have hin2 : ∀ v ∈ t.leafValues, v < NUM_CHARS := fun v hv => (hleaf v hv).1
  refine ⟨t, ht, ?_⟩
  have hbl := BuildCanonicalCode_length t hnd hin2
  have hdec : ((List.range NUM_CHARS).map
      fun i => (⟨i, ((BuildCanonicalCode t).map fun e => e.codeLen).getD i 0, none⟩ :
        CanonEntry)) = canonInit (depthLookup (leafDepths t 0)) := by
    unfold canonInit
    apply List.map_congr_left
    intro i hi
    have hi2 : i < NUM_CHARS := List.mem_range.mp hi
    have h3 : ((BuildCanonicalCode t).map fun e => e.codeLen).getD i 0 =
        depthLookup (leafDepths t 0) i := by
      rw [getD_map_lt (BuildCanonicalCode t) _ i ⟨0, 0, none⟩ 0 (by rw [hbl]; exact hi2)]
      exact BuildCanonicalCode_getD_len t hnd hin2 i hi2
    rw [h3]
  rw [hdec, withLens_eq t hnd hin2]

/-- Witness for c3_assignment_replay at the concrete input [0]. -/
theorem c3_assignment_replay_witness :
    ∃ t, GenerateTreeFromArray [0] = some t ∧
      AssignCanonicalCodes (List.insertionSort canonLenLE ((List.range NUM_CHARS).map
        fun i => (⟨i, ((BuildCanonicalCode t).map fun e => e.codeLen).getD i 0, none⟩ :
          CanonEntry))) =
      AssignCanonicalCodes (List.insertionSort canonLenLE
        (applyDepths initCanonList (leafDepths t 0))) :=
  c3_assignment_replay [0] (by decide) (by decide)

/-! ### The single-leaf (EOF-only) encoding -/

theorem assignGo_zeros (M : Nat) (cv ln : Nat) : ∀ (Z : List CanonEntry),
    (∀ e ∈ Z, e.codeLen = 0) → assignGo M cv ln Z = Z := by
  intro Z hZ
  rcases Z with _ | ⟨e, rest⟩
  · rfl
  · unfold assignGo
    rw [if_pos (hZ e (List.mem_cons_self e rest))]

theorem eof_tree : GenerateTreeFromArray [] = some (.leaf EOF_CHAR 1) := by
  have h0 : countSymbols initialLeafSlots [] = some initialLeafSlots := rfl
  rw [GenerateTree_some_of [] initialLeafSlots h0, initialLeafSlots_eq]
  have hE : EOF_CHAR < NUM_CHARS := by
    show (65536 : Nat) < 65537
    norm_num
  have h2 := BuildHuffmanTree_single_active NUM_CHARS initialCount
    (fun c => if c = EOF_CHAR then false else true) EOF_CHAR hE
    (by
      intro c _
      by_cases h : c = EOF_CHAR <;> simp [h])
    (by
      show initialCount EOF_CHAR < INT_MAX
      unfold initialCount INT_MAX
      norm_num)
  rw [h2]
  rfl

theorem eof_depthLookup_self :
    depthLookup (leafDepths (.leaf EOF_CHAR 1) 0) EOF_CHAR = 1 := rfl

theorem eof_depthLookup_other (i : Nat) (hi : i ≠ EOF_CHAR) :
    depthLookup (leafDepths (.leaf EOF_CHAR 1) 0) i = 0 := by
  unfold depthLookup leafDepths
  rw [List.find?_cons_of_neg]
  · rfl
  · simp
    omega


theorem canonInit_sorted_of_mono (W : Nat → Nat)
    (hm : ∀ i j, i < j → j < NUM_CHARS → W i ≤ W j) :
    (canonInit W).Sorted canonLenLE := by
  unfold canonInit
  apply List.pairwise_map.mpr
  apply List.pairwise_iff_getElem.mpr
  intro i j hi hj hij
  rw [List.length_range] at hi hj
  simp only [List.getElem_range]
  rcases Nat.lt_or_ge (W i) (W j) with h2 | h2
  · exact Or.inl h2
  · have h3 := hm i j hij hj
    refine Or.inr ⟨?_, ?_⟩
    · show W i = W j
      omega
    · show i ≤ j
      omega

theorem eof_canonInit_sorted :
    (canonInit (depthLookup (leafDepths (.leaf EOF_CHAR 1) 0))).Sorted canonLenLE := by
  apply canonInit_sorted_of_mono
  intro i j hij hj
  by_cases hje : j = EOF_CHAR
  · rw [eof_depthLookup_other i (by omega)]
    exact Nat.zero_le _
  · rw [eof_depthLookup_other i ?_, eof_depthLookup_other j hje]
    show i ≠ 65536
    have h2 : j < 65537 := hj
    have h3 : j ≠ 65536 := hje
    omega

theorem assignGo_step (M cv ln : Nat) (e : CanonEntry) (rest : List CanonEntry)
    (hnz : ¬ e.codeLen = 0) :
    assignGo M cv ln (e :: rest) =
      ⟨e.value, e.codeLen, some ⟨M, (if e.codeLen < ln then cv / 2 ^ (ln - e.codeLen) else cv)
          * 2 ^ (M - (if e.codeLen < ln then e.codeLen else ln)) % 2 ^ M⟩⟩ ::
        assignGo M (((if e.codeLen < ln then cv / 2 ^ (ln - e.codeLen) else cv) + 1) % 2 ^ M)
          (if e.codeLen < ln then e.codeLen else ln) rest := by
  conv_lhs => unfold assignGo
  rw [if_neg hnz]

theorem getD_append_self {α : Type _} (l1 l2 : List α) (e d : α) :
    (l1 ++ e :: l2).getD l1.length d = e := by
  rw [List.getD_eq_getElem?_getD, List.getElem?_append_right (le_refl l1.length)]
  simp

theorem getD_append_self_k {α : Type _} (l1 l2 : List α) (e d : α) (k : Nat)
    (hk : k = l1.length) : (l1 ++ e :: l2).getD k d = e := by
  rw [hk]
  exact getD_append_self l1 l2 e d

theorem canonInit_split (W : Nat → Nat) :
    canonInit W = ((List.range EOF_CHAR).map fun i => (⟨i, W i, none⟩ : CanonEntry))
      ++ [⟨EOF_CHAR, W EOF_CHAR, none⟩] := by
  unfold canonInit
  have h2 : NUM_CHARS = EOF_CHAR + 1 := rfl
  rw [h2, List.range_succ, List.map_append]
  rfl

theorem eof_canonInit_eq :
    canonInit (depthLookup (leafDepths (.leaf EOF_CHAR 1) 0)) =
      ((List.range EOF_CHAR).map fun i => (⟨i, 0, none⟩ : CanonEntry))
        ++ [(⟨EOF_CHAR, 1, none⟩ : CanonEntry)] := by
  rw [canonInit_split]
  rw [eof_depthLookup_self]
  have h2 : ((List.range EOF_CHAR).map fun i =>
      (⟨i, depthLookup (leafDepths (.leaf EOF_CHAR 1) 0) i, none⟩ : CanonEntry)) =
      (List.range EOF_CHAR).map fun i => (⟨i, 0, none⟩ : CanonEntry) := by
    apply List.map_congr_left
    intro i hi
    rw [eof_depthLookup_other i
      (by
        have h3 := List.mem_range.mp hi
        have h4 : EOF_CHAR = 65536 := rfl
        show i ≠ 65536
        omega)]
  rw [h2]

theorem eof_assign :
    AssignCanonicalCodes (canonInit (depthLookup (leafDepths (.leaf EOF_CHAR 1) 0))) =
      ((List.range EOF_CHAR).map fun i => (⟨i, 0, none⟩ : CanonEntry))
        ++ [(⟨EOF_CHAR, 1, some ⟨NUM_CHARS - 1, 0⟩⟩ : CanonEntry)] := by
  unfold AssignCanonicalCodes
  rw [eof_canonInit_eq]
  dsimp only
  have hlen0 : ((List.range EOF_CHAR).map fun i => (⟨i, 0, none⟩ : CanonEntry)).length =
      EOF_CHAR := by
    rw [List.length_map, List.length_range]
  have hgetD : ((((List.range EOF_CHAR).map fun i => (⟨i, 0, none⟩ : CanonEntry))
      ++ [(⟨EOF_CHAR, 1, none⟩ : CanonEntry)]).getD (NUM_CHARS - 1) (⟨0, 0, none⟩ : CanonEntry)) = (⟨EOF_CHAR, 1, none⟩ : CanonEntry) := by
    apply getD_append_self_k
    rw [hlen0]
    rfl
  simp only [hgetD]
  have hrev : (((List.range EOF_CHAR).map fun i => (⟨i, 0, none⟩ : CanonEntry))
      ++ [(⟨EOF_CHAR, 1, none⟩ : CanonEntry)]).reverse = (⟨EOF_CHAR, 1, none⟩ : CanonEntry) ::
      ((List.range EOF_CHAR).map fun i => (⟨i, 0, none⟩ : CanonEntry)).reverse := by
    rw [List.reverse_append]
    rw [List.reverse_singleton, List.singleton_append]
  rw [hrev]
  show (assignGo (NUM_CHARS - 1) 0 1 (⟨EOF_CHAR, 1, none⟩ ::
    ((List.range EOF_CHAR).map fun i => (⟨i, 0, none⟩ : CanonEntry)).reverse)).reverse = _
  have hnlt : ¬ ((⟨EOF_CHAR, 1, none⟩ : CanonEntry).codeLen < 1) := by
    show ¬ (1 : Nat) < 1
    norm_num
  have hstep : assignGo (NUM_CHARS - 1) 0 1 (⟨EOF_CHAR, 1, none⟩ ::
      ((List.range EOF_CHAR).map fun i => (⟨i, 0, none⟩ : CanonEntry)).reverse) =
      (⟨EOF_CHAR, 1, some ⟨NUM_CHARS - 1, 0⟩⟩ : CanonEntry) ::
      ((List.range EOF_CHAR).map fun i => (⟨i, 0, none⟩ : CanonEntry)).reverse := by
    rw [assignGo_step (NUM_CHARS - 1) 0 1 ⟨EOF_CHAR, 1, none⟩ _ (by norm_num)]
    rw [if_neg hnlt, if_neg hnlt]
    rw [Nat.zero_mul, Nat.zero_mod]
    have hz := assignGo_zeros (NUM_CHARS - 1) ((0 + 1) % 2 ^ (NUM_CHARS - 1)) 1
      (((List.range EOF_CHAR).map fun i => (⟨i, 0, none⟩ : CanonEntry)).reverse)
      (by
        intro e he
        rw [List.mem_reverse] at he
        obtain ⟨i, _, hi2⟩ := List.mem_map.mp he
        rw [← hi2])
    rw [hz]
  rw [hstep, List.reverse_cons, List.reverse_reverse]

theorem eof_final_sorted :
    ((((List.range EOF_CHAR).map fun i => (⟨i, 0, none⟩ : CanonEntry))
      ++ [(⟨EOF_CHAR, 1, some ⟨NUM_CHARS - 1, 0⟩⟩ : CanonEntry)]).Sorted canonValLE) := by
  refine List.pairwise_append.mpr ⟨?_, ?_, ?_⟩
  · apply List.pairwise_map.mpr
    apply List.pairwise_iff_getElem.mpr
    intro i j hi hj hij
    rw [List.length_range] at hi hj
    simp only [List.getElem_range]
    show i ≤ j
    omega
  · simp
  · intro a ha b hb
    obtain ⟨i, hi, hi2⟩ := List.mem_map.mp ha
    have hbe : b = ⟨EOF_CHAR, 1, some ⟨NUM_CHARS - 1, 0⟩⟩ := List.mem_singleton.mp hb
    rw [← hi2, hbe]
    show i ≤ EOF_CHAR
    have h2 := List.mem_range.mp hi
    omega

theorem BuildCanonicalCode_eofOnly :
    BuildCanonicalCode (.leaf EOF_CHAR 1) =
      ((List.range EOF_CHAR).map fun i => (⟨i, 0, none⟩ : CanonEntry))
        ++ [(⟨EOF_CHAR, 1, some ⟨NUM_CHARS - 1, 0⟩⟩ : CanonEntry)] := by
  have hnd : (HuffTree.leaf EOF_CHAR 1).leafValues.Nodup := by
    show ([EOF_CHAR] : List Nat).Nodup
    simp
  have hin : ∀ v ∈ (HuffTree.leaf EOF_CHAR 1).leafValues, v < NUM_CHARS := by
    intro v hv
    have h2 : v = EOF_CHAR := List.mem_singleton.mp hv
    rw [h2]
    show (65536 : Nat) < 65537
    norm_num
  have hb : BuildCanonicalCode (.leaf EOF_CHAR 1) = List.insertionSort canonValLE
      (AssignCanonicalCodes (List.insertionSort canonLenLE
        (applyDepths initCanonList (leafDepths (.leaf EOF_CHAR 1) 0)))) := rfl
  rw [hb, withLens_eq _ hnd hin, List.Sorted.insertionSort_eq eof_canonInit_sorted,
    eof_assign, List.Sorted.insertionSort_eq eof_final_sorted]

theorem eofCl_lookup_eof :
    clLookup (((List.range EOF_CHAR).map fun i => (⟨i, 0, none⟩ : CanonEntry))
      ++ [(⟨EOF_CHAR, 1, some ⟨NUM_CHARS - 1, 0⟩⟩ : CanonEntry)]) EOF_CHAR =
    ⟨EOF_CHAR, 1, some ⟨NUM_CHARS - 1, 0⟩⟩ := by
  unfold clLookup
  apply getD_append_self_k
  rw [List.length_map, List.length_range]

theorem eof_codeBits :
    codeBits (⟨EOF_CHAR, 1, some ⟨NUM_CHARS - 1, 0⟩⟩ : CanonEntry) = [false] := by
  show (List.range 1).map (fun j => (⟨NUM_CHARS - 1, 0⟩ : BitArr).testBit j) = [false]
  have h2 : (List.range 1).map (fun j => (⟨NUM_CHARS - 1, 0⟩ : BitArr).testBit j) =
      [(⟨NUM_CHARS - 1, 0⟩ : BitArr).testBit 0] := rfl
  rw [h2]
  unfold BitArr.testBit
  rw [if_pos (by decide : (0 : Nat) < (⟨NUM_CHARS - 1, 0⟩ : BitArr).numBits)]
  rw [show ((⟨NUM_CHARS - 1, 0⟩ : BitArr).val) = 0 from rfl, Nat.zero_testBit]

theorem foldl_add_eq_zero (g : Nat → Nat) : ∀ (l : List Nat) (acc : Nat),
    (∀ i ∈ l, g i = 0) → l.foldl (fun a i => a + g i) acc = acc := by
  intro l
  induction l with
  | nil =>
    intro acc _
    rfl
  | cons x xs ih =>
    intro acc h
    show (xs.foldl (fun a i => a + g i) (acc + g x)) = acc
    rw [h x (List.mem_cons_self x xs), ih (acc + 0) (fun i hi => h i (List.mem_cons_of_mem x hi))]
    omega

theorem encodedSize_nil (cl : List CanonEntry) :
    encodedSize cl [] = 0 + (clLookup cl EOF_CHAR).codeLen := by
  unfold encodedSize
  rw [foldl_add_eq_zero _ (List.range NUM_CHARS) 0 (by
    intro i hi
    rw [histogram_getD [] i (List.mem_range.mp hi)]
    rw [show List.count i ([] : List Nat) = 0 from rfl, Nat.zero_mul])]

theorem eof_encodedSize :
    encodedSize (((List.range EOF_CHAR).map fun i => (⟨i, 0, none⟩ : CanonEntry))
      ++ [(⟨EOF_CHAR, 1, some ⟨NUM_CHARS - 1, 0⟩⟩ : CanonEntry)]) [] = 1 := by
  rw [encodedSize_nil, eofCl_lookup_eof]
  decide

theorem eof_encodeBits :
    encodeBitsList (((List.range EOF_CHAR).map fun i => (⟨i, 0, none⟩ : CanonEntry))
      ++ [(⟨EOF_CHAR, 1, some ⟨NUM_CHARS - 1, 0⟩⟩ : CanonEntry)]) [] = [false] := by
  unfold encodeBitsList
  rw [eofCl_lookup_eof, eof_codeBits]
  rw [show concatAll (([] : List Nat).map fun c => codeBits (clLookup
    (((List.range EOF_CHAR).map fun i => (⟨i, 0, none⟩ : CanonEntry))
      ++ [(⟨EOF_CHAR, 1, some ⟨NUM_CHARS - 1, 0⟩⟩ : CanonEntry)]) c)) = [] from rfl]
  rw [List.nil_append]

theorem eof_encode :
    CHuffmanEncodeArray [] = some ⟨⟨1, 0⟩,
      ((List.range EOF_CHAR).map fun i => (⟨i, 0, none⟩ : CanonEntry))
        ++ [(⟨EOF_CHAR, 1, some ⟨NUM_CHARS - 1, 0⟩⟩ : CanonEntry)], 1⟩ := by
  rw [CHuffman_some_of [] (.leaf EOF_CHAR 1) eof_tree, BuildCanonicalCode_eofOnly,
    eof_encodedSize, eof_encodeBits, show bitsToVal [false] = 0 from rfl]

theorem maskedData_zero (data mask : List Nat) (h : ∀ m ∈ mask, m = 0) :
    maskedData data mask = [] := by
  unfold maskedData
  rw [List.filter_eq_nil_iff.mpr ?_]
  · rfl
  · intro dm hdm
    have h2 := List.of_mem_zip hdm
    have h3 := h dm.2 h2.2
    simp [h3]

/-! ### Decoding the EOF-only container -/

theorem readTable_cons_ws (n : Nat) (hn : 0 < n) (b : Nat) (X : List Nat)
    (hb : isWsByte b = true) : readTable n (b :: X) = readTable n X := by
  rcases n with _ | m
  · omega
  · show (match parseUInt (b :: X) with
      | none => none
      | some (v, r) =>
        match readTable m (skipWs r) with
        | none => none
        | some (vs, r2) => some (v :: vs, r2)) =
      (match parseUInt X with
      | none => none
      | some (v, r) =>
        match readTable m (skipWs r) with
        | none => none
        | some (vs, r2) => some (v :: vs, r2))
    rw [parseUInt_cons_ws b X hb]

theorem skipWs_concat_digits (tbl : List Nat) (rest : List Nat)
    (hrest : ∀ c rest2, rest = c :: rest2 → isDigitByte c = true) :
    skipWs (concatAll (tbl.map fun L => decDigits L ++ [SP]) ++ rest) =
      concatAll (tbl.map fun L => decDigits L ++ [SP]) ++ rest := by
  rcases tbl with _ | ⟨L, tbl2⟩
  · show skipWs rest = rest
    rcases hr : rest with _ | ⟨c, cs⟩
    · rfl
    · exact skipWs_cons_not c cs (digit_not_ws c (hrest c cs hr))
  · rcases hds : decDigits L with _ | ⟨d, ds2⟩
    · exact absurd hds (decDigitsGo_ne_nil L L)
    · have hdd : isDigitByte d = true := by
        apply decDigitsGo_digits L L d
        show d ∈ decDigits L
        rw [hds]
        exact List.mem_cons_self d ds2
      have hhead : concatAll ((L :: tbl2).map fun L2 => decDigits L2 ++ [SP]) ++ rest =
          d :: (ds2 ++ ([SP] ++ (concatAll (tbl2.map fun L2 => decDigits L2 ++ [SP])
            ++ rest))) := by
        show ((decDigits L ++ [SP]) ++ concatAll (tbl2.map fun L2 => decDigits L2 ++ [SP]))
          ++ rest = _
        rw [hds]
        simp [List.append_assoc]
      rw [hhead, skipWs_cons_not d _ (digit_not_ws d hdd)]

theorem readTable_concat : ∀ (tbl : List Nat) (rest : List Nat),
    (∀ c rest2, rest = c :: rest2 → isDigitByte c = true) →
    readTable tbl.length (concatAll (tbl.map fun L => decDigits L ++ [SP]) ++ rest) =
      some (tbl, rest) := by
  intro tbl
  induction tbl with
  | nil =>
    intro rest _
    rfl
  | cons L tbl2 ih =>
    intro rest hrest
    have hassoc : concatAll ((L :: tbl2).map fun L2 => decDigits L2 ++ [SP]) ++ rest =
        decDigits L ++ (SP :: (concatAll (tbl2.map fun L2 => decDigits L2 ++ [SP]) ++ rest)) := by
      show ((decDigits L ++ [SP]) ++ concatAll (tbl2.map fun L2 => decDigits L2 ++ [SP]))
        ++ rest = _
      simp [List.append_assoc]
    rw [hassoc]
    show (match parseUInt (decDigits L ++ (SP :: (concatAll
        (tbl2.map fun L2 => decDigits L2 ++ [SP]) ++ rest))) with
      | none => none
      | some (v, r) =>
        match readTable tbl2.length (skipWs r) with
        | none => none
        | some (vs, r2) => some (v :: vs, r2)) = some (L :: tbl2, rest)
    rw [parseUInt_decDigits L _ (by
      intro c rest2 he
      injection he with h1 _
      rw [← h1]
      rfl)]
    dsimp only
    rw [show skipWs (SP :: (concatAll (tbl2.map fun L2 => decDigits L2 ++ [SP]) ++ rest)) =
      skipWs (concatAll (tbl2.map fun L2 => decDigits L2 ++ [SP]) ++ rest) from rfl]
    rw [skipWs_concat_digits tbl2 rest hrest]
    rw [ih rest hrest]

theorem decoder_entries_eq (t : HuffTree) (hnd : t.leafValues.Nodup)
    (hin : ∀ v ∈ t.leafValues, v < NUM_CHARS) :
    ((List.range NUM_CHARS).map fun i =>
      (⟨i, ((BuildCanonicalCode t).map fun e => e.codeLen).getD i 0, none⟩ : CanonEntry)) =
    canonInit (depthLookup (leafDepths t 0)) := by
  have hbl := BuildCanonicalCode_length t hnd hin
  unfold canonInit
  apply List.map_congr_left
  intro i hi
  have hi2 : i < NUM_CHARS := List.mem_range.mp hi
  have h3 : ((BuildCanonicalCode t).map fun e => e.codeLen).getD i 0 =
      depthLookup (leafDepths t 0) i := by
    rw [getD_map_lt (BuildCanonicalCode t) _ i ⟨0, 0, none⟩ 0 (by rw [hbl]; exact hi2)]
    exact BuildCanonicalCode_getD_len t hnd hin i hi2
  rw [h3]

theorem lenIndexFn_of_findIdx (nc : Nat) (cl : List CanonEntry) (L k : Nat)
    (h : cl.findIdx? (fun e => e.codeLen == L) = some k) : lenIndexFn nc cl L = k := by
  unfold lenIndexFn
  rw [h]

theorem eofAssigned_findIdx_one :
    ((((List.range EOF_CHAR).map fun i => (⟨i, 0, none⟩ : CanonEntry))
      ++ [(⟨EOF_CHAR, 1, some ⟨NUM_CHARS - 1, 0⟩⟩ : CanonEntry)]).findIdx?
      fun e => e.codeLen == 1) = some EOF_CHAR := by
  have h1 : (((List.range EOF_CHAR).map fun i => (⟨i, 0, none⟩ : CanonEntry)).findIdx?
      fun e => e.codeLen == 1) = none := by
    rw [List.findIdx?_eq_none_iff]
    intro e he
    obtain ⟨i, _, hi2⟩ := List.mem_map.mp he
    rw [← hi2]
    rfl
  have h2 : (([(⟨EOF_CHAR, 1, some ⟨NUM_CHARS - 1, 0⟩⟩ : CanonEntry)]).findIdx?
      fun e => e.codeLen == 1) = some 0 := by
    simp [List.findIdx?]
  rw [List.findIdx?_append, h1, h2]
  rw [show (Option.map (fun i => i + (((List.range EOF_CHAR).map
      fun i => (⟨i, 0, none⟩ : CanonEntry))).length) (some 0)) =
      some (0 + (((List.range EOF_CHAR).map
        fun i => (⟨i, 0, none⟩ : CanonEntry))).length) from rfl]
  rw [List.length_map, List.length_range, Nat.zero_add]
  rfl

theorem eofAssigned_lenIndex_one :
    lenIndexFn NUM_CHARS (((List.range EOF_CHAR).map fun i => (⟨i, 0, none⟩ : CanonEntry))
      ++ [(⟨EOF_CHAR, 1, some ⟨NUM_CHARS - 1, 0⟩⟩ : CanonEntry)]) 1 = EOF_CHAR :=
  lenIndexFn_of_findIdx NUM_CHARS _ 1 EOF_CHAR eofAssigned_findIdx_one

theorem bucketFind_of (nc : Nat) (cl : List CanonEntry) (L v k : Nat)
    (hk : lenIndexFn nc cl L = k)
    (e : CanonEntry)
    (hdrop : cl.drop k = [e])
    (hL : (e.codeLen == L) = true)
    (hv : (storedCodeVal e == v) = true) :
    bucketFind nc cl L v = some e := by
  unfold bucketFind
  rw [hk, hdrop]
  have ht : List.takeWhile (fun e2 => e2.codeLen == L) [e] = [e] := by
    rw [@List.takeWhile_cons_of_pos CanonEntry (fun e2 => e2.codeLen == L) e [] hL]
    rfl
  rw [ht, @List.find?_cons_of_pos CanonEntry (fun e2 => storedCodeVal e2 == v) e [] hv]

theorem drop_len_append {α : Type _} (l1 l2 : List α) (k : Nat) (hk : k = l1.length) :
    (l1 ++ l2).drop k = l2 := by
  rw [hk]
  exact List.drop_left l1 l2

theorem eofAssigned_drop :
    (((List.range EOF_CHAR).map fun i => (⟨i, 0, none⟩ : CanonEntry))
      ++ [(⟨EOF_CHAR, 1, some ⟨NUM_CHARS - 1, 0⟩⟩ : CanonEntry)]).drop EOF_CHAR =
      [(⟨EOF_CHAR, 1, some ⟨NUM_CHARS - 1, 0⟩⟩ : CanonEntry)] :=
  drop_len_append _ _ EOF_CHAR (by rw [List.length_map, List.length_range])

theorem eofAssigned_bucketFind :
    bucketFind NUM_CHARS (((List.range EOF_CHAR).map fun i => (⟨i, 0, none⟩ : CanonEntry))
      ++ [(⟨EOF_CHAR, 1, some ⟨NUM_CHARS - 1, 0⟩⟩ : CanonEntry)]) 1 0 =
    some ⟨EOF_CHAR, 1, some ⟨NUM_CHARS - 1, 0⟩⟩ :=
  bucketFind_of NUM_CHARS _ 1 0 EOF_CHAR eofAssigned_lenIndex_one _ eofAssigned_drop rfl rfl

theorem decodeLoop_eof (f : Nat) (numBits : Nat) (bits : List Bool)
    (hnb : 0 < numBits) (hlen : 0 < bits.length) (hb0 : bits.getD 0 false = false) :
    decodeLoop NUM_CHARS (((List.range EOF_CHAR).map fun i => (⟨i, 0, none⟩ : CanonEntry))
      ++ [(⟨EOF_CHAR, 1, some ⟨NUM_CHARS - 1, 0⟩⟩ : CanonEntry)]) bits numBits
      (f + 1) 0 0 0 [] = some [] := by
  conv_lhs => unfold decodeLoop
  rw [if_pos (⟨hnb, hlen⟩ : 0 < numBits ∧ 0 < bits.length)]
  rw [hb0]
  rw [if_neg (by simp : ¬ (false = true ∧ ¬ 0 < NUM_CHARS - 1))]
  rw [show (if false then (0 : Nat) ||| 2 ^ (NUM_CHARS - 1 - 1 - 0) else 0) = 0 from rfl]
  rw [Nat.zero_add]
  rw [if_pos ?_]
  · rw [eofAssigned_bucketFind]
    dsimp only
    rw [if_neg (by simp : ¬ ((⟨EOF_CHAR, 1, some ⟨NUM_CHARS - 1, 0⟩⟩ :
      CanonEntry).value ≠ EOF_CHAR))]
  · rw [eofAssigned_lenIndex_one]
    decide

theorem compressFile_of (data mask : List Nat) (w h : Nat) (header : List Nat)
    (enc : EncodedArray)
    (henc : CHuffmanEncodeArray (maskedData data mask) = some enc) :
    compressFile data mask w h header = some (mkSqdFile header w h
      (enc.canonicalList.map (·.codeLen)) ((enc.size + 7) / 8) (compressPayload enc)) := by
  unfold compressFile
  rw [henc]

theorem decompress_of (file : List Nat) (afterMagic : List Nat) (hd : SqdHeader) (nc : Nat)
    (h1 : openSqdBytes file = some afterMagic)
    (h2 : readSqdHeader afterMagic = some hd)
    (h3 : hd.num_chars = some nc)
    (table : List Nat) (r1 : List Nat)
    (h4 : readTable nc hd.rest = some (table, r1))
    (numBytes : Nat) (r2 : List Nat)
    (h5 : parseUInt r1 = some (numBytes, r2)) :
    cSquish_decompress file = decodeLoop nc
      (AssignCanonicalCodes (List.insertionSort canonLenLE ((List.range nc).map fun i =>
        (⟨i, table.getD i 0, none⟩ : CanonEntry))))
      (concatAll ((skipWs r2).map byteBits)) (numBytes * 8) (8 * (skipWs r2).length + 1)
      0 0 0 [] := by
  unfold cSquish_decompress
  rw [h1]
  dsimp only
  rw [h2]
  dsimp only
  rw [h3]
  dsimp only
  rw [h4]
  dsimp only
  rw [h5]

theorem readTable_len_congr (n : Nat) (tbl rest l : List Nat) (hn : tbl.length = n)
    (h : readTable tbl.length l = some (tbl, rest)) : readTable n l = some (tbl, rest) := by
  rw [← hn]
  exact h

theorem eofTbl_length :
    ((((List.range EOF_CHAR).map fun i => (⟨i, 0, none⟩ : CanonEntry))
      ++ [(⟨EOF_CHAR, 1, some ⟨NUM_CHARS - 1, 0⟩⟩ : CanonEntry)]).map (·.codeLen)).length = NUM_CHARS := by
  rw [List.length_map, List.length_append, List.length_map, List.length_range]
  rfl

theorem eofTbl_readTable :
    readTable ((((List.range EOF_CHAR).map fun i => (⟨i, 0, none⟩ : CanonEntry))
      ++ [(⟨EOF_CHAR, 1, some ⟨NUM_CHARS - 1, 0⟩⟩ : CanonEntry)]).map (·.codeLen)).length
      (concatAll (((((List.range EOF_CHAR).map fun i => (⟨i, 0, none⟩ : CanonEntry))
      ++ [(⟨EOF_CHAR, 1, some ⟨NUM_CHARS - 1, 0⟩⟩ : CanonEntry)]).map (·.codeLen)).map
        fun L => decDigits L ++ [SP]) ++ [49, 32, 0]) =
      some (((((List.range EOF_CHAR).map fun i => (⟨i, 0, none⟩ : CanonEntry))
      ++ [(⟨EOF_CHAR, 1, some ⟨NUM_CHARS - 1, 0⟩⟩ : CanonEntry)]).map (·.codeLen)), [49, 32, 0]) :=
  readTable_concat _ [49, 32, 0]
      (by
        intro c r2 he
        injection he with h1 _
        rw [← h1]
        rfl)

theorem eofTbl_readTable_sp :
    readTable NUM_CHARS (SP :: (concatAll (((((List.range EOF_CHAR).map fun i => (⟨i, 0, none⟩ : CanonEntry))
      ++ [(⟨EOF_CHAR, 1, some ⟨NUM_CHARS - 1, 0⟩⟩ : CanonEntry)]).map (·.codeLen)).map
        fun L => decDigits L ++ [SP]) ++ (decDigits 1 ++ ([SP] ++ [0])))) =
      some (((((List.range EOF_CHAR).map fun i => (⟨i, 0, none⟩ : CanonEntry))
      ++ [(⟨EOF_CHAR, 1, some ⟨NUM_CHARS - 1, 0⟩⟩ : CanonEntry)]).map (·.codeLen)), [49, 32, 0]) := by
  rw [readTable_cons_ws NUM_CHARS (by decide) SP _ rfl]
  rw [show decDigits 1 ++ ([SP] ++ [0]) = [49, 32, 0] from rfl]
  exact readTable_len_congr NUM_CHARS ((((List.range EOF_CHAR).map fun i => (⟨i, 0, none⟩ : CanonEntry))
      ++ [(⟨EOF_CHAR, 1, some ⟨NUM_CHARS - 1, 0⟩⟩ : CanonEntry)]).map (·.codeLen))
    [49, 32, 0]
    (concatAll (((((List.range EOF_CHAR).map fun i => (⟨i, 0, none⟩ : CanonEntry))
      ++ [(⟨EOF_CHAR, 1, some ⟨NUM_CHARS - 1, 0⟩⟩ : CanonEntry)]).map (·.codeLen)).map
      fun L => decDigits L ++ [SP]) ++ [49, 32, 0]) eofTbl_length eofTbl_readTable

theorem eof_decompress (header : List Nat) (w h : Nat)
    (hnl : ∀ b ∈ header, b ≠ 10)
    (hws : ∀ b rest2, header = b :: rest2 → isWsByte b = false) :
    cSquish_decompress (mkSqdFile header w h
      ((((List.range EOF_CHAR).map fun i => (⟨i, 0, none⟩ : CanonEntry))
      ++ [(⟨EOF_CHAR, 1, some ⟨NUM_CHARS - 1, 0⟩⟩ : CanonEntry)]).map (·.codeLen))
      1 [0]) = some [] := by
  rw [mkSqdFile_assoc]
  rw [decompress_of _ _ _ NUM_CHARS
    (openSqdBytes_magic _)
    (readSqdHeader_mkSqd header w h _ hnl hws)
    rfl
    _ [49, 32, 0] eofTbl_readTable_sp
    1 [32, 0] (by decide)]
  rw [show skipWs [32, 0] = [0] from rfl]
  rw [← BuildCanonicalCode_eofOnly]
  rw [decoder_entries_eq (.leaf EOF_CHAR 1) (by show ([EOF_CHAR] : List Nat).Nodup; simp)
    (by
      intro v hv
      have h2 : v = EOF_CHAR := List.mem_singleton.mp hv
      rw [h2]
      decide)]
  rw [List.Sorted.insertionSort_eq eof_canonInit_sorted]
  rw [eof_assign]
  exact decodeLoop_eof (8 * List.length [0]) (1 * 8) _ (by decide) (by decide) (by decide)
